import Mathlib

/-!
# utils::stringops — a verification development

Shallow embedding of `inc/utils/stringoperations.h` (namespace `utils::stringops`)
and theorems about it.

Data model
* a byte string (`std::string`, `const char*` contents) is a list of 8-bit code units;
* `size_t` indices are natural numbers; `trim`, whose `--end` could leave the range, has
  its `--` and `++` reduced modulo `2 ^ 64`, the other index arithmetic stays within the
  string;
* a `while` loop is a function with a fuel argument; running out of fuel is the
  outcome `Outcome.diverged`, distinct from every outcome the C++ code can produce, and
  the theorems give the fuel from which on the loop has finished;
* an access outside a string (`operator[]` with an index above `size()`) is the
  outcome `Outcome.undefined`; a failed `assert` or a thrown exception is `Outcome.failed`;
* the arguments of `format` are seen through their types, which is all `checkFormat`
  inspects; the platform formatter `snprintf` is a parameter, and so are the platform's
  `std::tolower` and `std::toupper`, which depend on the C locale.
-/

namespace utils.stringops

/-! ## Data model -/

/-- An 8-bit code unit (`char` seen as `unsigned char`). -/
abbrev Byte := Fin 256

/-- A byte string: the contents of a `std::string`, or of a C string before its terminator. -/
abbrev Str := List Byte

/-- The bytes of an ASCII literal. -/
def bytes (s : String) : Str := s.toList.map (fun c => Fin.ofNat c.toNat)

/-- The failure sites of the header: the `what()` of each `std::logic_error` it throws
(each preceded by an `assert` in `checkFormat`), and `std::out_of_range` of the standard
library. -/
inductive Failure where
  /-- "Too many format specifiers" (`checkFormat` without remaining arguments). -/
  | tooManyFormatSpecifiers
  /-- "Too few format specifiers:" (`checkFormat` with remaining arguments). -/
  | tooFewFormatSpecifiers
  /-- "Invalid format char %c" with the offending character. -/
  | invalidFormatChar (c : Byte)
  /-- "T is not an integral". -/
  | notAnIntegral
  /-- "T is not a pointer". -/
  | notAPointer
  /-- "T is not a float". -/
  | notAFloat
  /-- "T is not a string". -/
  | notAString
  /-- `std::out_of_range` from `substr` / `replace` with a position above `size()`. -/
  | outOfRange
  deriving DecidableEq, Repr

/-- What running a function of the header leads to. -/
inductive Outcome (α : Type) where
  /-- Normal return. -/
  | ok (a : α)
  /-- A failure site was reached: its `assert` stops the program, or its exception leaves
  the function. -/
  | failed (e : Failure)
  /-- An access outside the string: the behaviour is undefined. -/
  | undefined
  /-- The fuel of the model ran out: the loop had not finished. -/
  | diverged
  deriving DecidableEq, Repr

/-- `size_t` is 64 bits wide. -/
def SIZE_MOD : Nat := 2 ^ 64

/-! ## `std::string` primitives -/

/-- Scan of `std::string::find`: `t` is the text from offset `i` on; the first offset at
which `n` is a prefix of the remaining text. -/
def findFrom (n : Str) : Str → Nat → Option Nat
  | [], i => if n.isPrefixOf [] then some i else none
  | c :: cs, i => if n.isPrefixOf (c :: cs) then some i else findFrom n cs (i + 1)

/-- `s.find(n, pos)`: the lowest index `≥ pos` at which `n` occurs in `s`, `none` for
`npos`. -/
def find (s n : Str) (pos : Nat) : Option Nat :=
  if pos ≤ s.length then findFrom n (s.drop pos) pos else none

/-- `s.substr(pos, len)`; throws `std::out_of_range` when `pos > size()`. -/
def substr (s : Str) (pos len : Nat) : Outcome Str :=
  if pos ≤ s.length then .ok ((s.drop pos).take len) else .failed .outOfRange

/-- `s.substr(pos)`: to the end of the string. -/
def substrFrom (s : Str) (pos : Nat) : Outcome Str :=
  if pos ≤ s.length then .ok (s.drop pos) else .failed .outOfRange

/-- `s.replace(pos, len, r)`; throws `std::out_of_range` when `pos > size()`. -/
def stringReplace (s : Str) (pos len : Nat) (r : Str) : Outcome Str :=
  if pos ≤ s.length then .ok (s.take pos ++ r ++ s.drop (pos + len)) else .failed .outOfRange

/-- `s[i]` of a `std::string`: the byte at `i`, the terminator `0` at `i = size()`,
undefined above. -/
def charAt (s : Str) (i : Nat) : Outcome Byte :=
  if h : i < s.length then .ok (s.get ⟨i, h⟩)
  else if i = s.length then .ok 0
  else .undefined

/-- Sequencing: the continuation runs on a normal return, any other outcome ends the
function. -/
def Outcome.bind {α β : Type} : Outcome α → (α → Outcome β) → Outcome β
  | .ok a, k => k a
  | .failed e, _ => .failed e
  | .undefined, _ => .undefined
  | .diverged, _ => .diverged

/-! ## tokenize -/

/-- The `while` loop of `tokenize`, with the state `(tokens, index)`. -/
def tokenizeLoop (str delimiter : Str) : Nat → List Str → Nat → Outcome (List Str × Nat)
  | 0, _, _ => .diverged
  | fuel + 1, tokens, index =>
    match find str delimiter index with
    | none => .ok (tokens, index)
    | some pos =>
      (substr str index (pos - index)).bind fun tok =>
        tokenizeLoop str delimiter fuel (tokens ++ [tok]) (pos + delimiter.length)

/-- The end of `tokenize`, after the loop: the text after the last delimiter is pushed
when `index < str.size()`. -/
def tokenizeRest (str : Str) (st : List Str × Nat) : Outcome (List Str) :=
  if st.2 < str.length then
    (substrFrom str st.2).bind fun tok => .ok (st.1 ++ [tok])
  else .ok st.1

/-- `tokenize(str, delimiter)`. -/
def tokenize (fuel : Nat) (str delimiter : Str) : Outcome (List Str) :=
  (tokenizeLoop str delimiter fuel [] 0).bind (tokenizeRest str)

/-! ## replace -/

/-- The `while` loop of `replace`, with the state `(aString, startPos)`. -/
def replaceLoop (toSearch toReplace : Str) : Nat → Str → Nat → Outcome Str
  | 0, _, _ => .diverged
  | fuel + 1, aString, startPos =>
    match find aString toSearch startPos with
    | none => .ok aString
    | some foundPos =>
      (stringReplace aString foundPos toSearch.length toReplace).bind fun a =>
        replaceLoop toSearch toReplace fuel a (foundPos + toReplace.length)

/-- `replace(aString, toSearch, toReplace)`: the value of `aString` on return. -/
def replace (fuel : Nat) (aString toSearch toReplace : Str) : Outcome Str :=
  replaceLoop toSearch toReplace fuel aString 0

/-! ## trim -/

/-- The bytes `trim` tests for: `' '`, `'\t'`, `'\r'`, `'\n'`. -/
def isTrimByte (c : Byte) : Bool :=
  c = 32 || c = 9 || c = 13 || c = 10

/-- The first loop of `trim`: advances `begin` over leading trim bytes, leaving the loop
when `begin` reaches `size()`. -/
def trimBeginLoop (aString : Str) : Nat → Nat → Outcome Nat
  | 0, _ => .diverged
  | fuel + 1, b =>
    (charAt aString b).bind fun c =>
      if isTrimByte c then
        if b + 1 = aString.length then .ok (b + 1)
        else trimBeginLoop aString fuel (b + 1)
      else .ok b

/-- The second loop of `trim`: moves `end` down over trailing trim bytes; `--end` is
`size_t` arithmetic. -/
def trimEndLoop (aString : Str) : Nat → Nat → Outcome Nat
  | 0, _ => .diverged
  | fuel + 1, e =>
    (charAt aString e).bind fun c =>
      if isTrimByte c then trimEndLoop aString fuel ((e + SIZE_MOD - 1) % SIZE_MOD)
      else .ok e

/-- `trim(aString)`: the value of `aString` on return. After the first loop the string is
emptied when `begin == size()`, and the second loop runs on the string as it then is. -/
def trim (fuel : Nat) (aString : Str) : Outcome Str :=
  if aString = [] then .ok aString
  else
    (trimBeginLoop aString fuel 0).bind fun b =>
      let a1 : Str := if b = aString.length then [] else aString
      (trimEndLoop a1 fuel (aString.length - 1)).bind fun e =>
        if b > e then .ok []
        else substr a1 b (((e + 1) % SIZE_MOD + SIZE_MOD - b) % SIZE_MOD)

/-! ## dos2unix, urlEncode, lowercase and uppercase -/

/-- `dos2unix(aString)`: `replace(aString, "\r\n", "\n")`. -/
def dos2unix (fuel : Nat) (aString : Str) : Outcome Str :=
  replace fuel aString [13, 10] [10]

/-- A digit of the stream's hexadecimal output: `0`..`9`, then `a`..`f` (no `uppercase`
flag is set). -/
def hexDigit (d : Nat) : Byte :=
  Fin.ofNat (if d < 10 then 48 + d else 87 + d)

/-- The digits of `n` in base 16, most significant first, no leading zero; an `int` has
at most 8 of them, which is the fuel `toHex` gives. -/
def hexDigits : Nat → Nat → Str
  | 0, _ => []
  | fuel + 1, n =>
    if n < 16 then [hexDigit n] else hexDigits fuel (n / 16) ++ [hexDigit (n % 16)]

/-- `result << std::hex << n` for a non-negative `int`: what is appended to the stream. -/
def toHex (n : Nat) : Str := hexDigits 8 n

/-- The `for` loop of `urlEncode`: `result` is the text of the stream so far, the first
argument the bytes from index `i` on. -/
def urlEncodeLoop : Str → Str → Str
  | [], result => result
  | c :: rest, result =>
    let curChar : Nat := c.val
    if (48 ≤ curChar && curChar ≤ 57) ||
        (65 ≤ curChar && curChar ≤ 90) ||
        (97 ≤ curChar && curChar ≤ 122) ||
        c = 45 || c = 95 ||
        c = 46 || c = 33 ||
        c = 126 || c = 42 ||
        c = 39 || c = 40 ||
        c = 41 then
      urlEncodeLoop rest (result ++ [c])
    else if c = 32 then
      urlEncodeLoop rest (result ++ [43])
    else
      urlEncodeLoop rest (result ++ 37 :: toHex curChar)

/-- `urlEncode(aString)`. -/
def urlEncode (aString : Str) : Str := urlEncodeLoop aString []

/-- `lowercase(aString)`: `std::transform` with `std::tolower`, the platform's function,
taken on bytes. -/
def lowercase (tolower : Byte → Byte) (aString : Str) : Str := aString.map tolower

/-- `uppercase(aString)`: `std::transform` with `std::toupper`, the platform's function,
taken on bytes. -/
def uppercase (toupper : Byte → Byte) (aString : Str) : Str := aString.map toupper

/-! ## The formatting façade -/

/-- The argument types `normalizeArg` has an overload for. -/
inductive ArgType where
  /-- An enumeration (`std::is_enum`). -/
  | enumeration
  /-- An integral type (`std::is_integral`). -/
  | integral
  /-- A floating-point type (`std::is_floating_point`). -/
  | floating
  /-- A pointer `T*` (`std::is_pointer`); `toChar` says that `T` is `char` up to cv. -/
  | pointer (toChar : Bool)
  /-- A `std::string`. -/
  | string
  deriving DecidableEq, Repr

/-- The types `normalizeArg` returns, which `checkFormat` sees as `T`. -/
inductive CType where
  /-- `long`. -/
  | long
  /-- `double`. -/
  | double
  /-- A pointer; `toChar` says that the pointee is `char` up to cv. -/
  | ptr (toChar : Bool)
  deriving DecidableEq, Repr

/-- The return type of `normalizeArg`, overload by overload. -/
def normalizeArg : ArgType → CType
  | .enumeration => .long
  | .integral => .long
  | .floating => .double
  | .pointer toChar => .ptr toChar
  | .string => .ptr true

/-- `std::is_integral<T>::value`. -/
def is_integral : CType → Bool
  | .long => true
  | _ => false

/-- `std::is_pointer<T>::value`. -/
def is_pointer : CType → Bool
  | .ptr _ => true
  | _ => false

/-- `std::is_floating_point<T>::value`. -/
def is_floating_point : CType → Bool
  | .double => true
  | _ => false

/-- `is_c_string<T>::value`: a pointer to (cv) `char`. -/
def is_c_string : CType → Bool
  | .ptr toChar => toChar
  | _ => false

/-- `checkFormat(f)` without remaining arguments. A C string is the list of its bytes
before the terminator: `[]` is `*f == 0`. -/
def checkFormatEnd : Str → Outcome Unit
  | [] => .ok ()
  | c :: rest =>
    if c ≠ 37 then checkFormatEnd rest
    else
      match rest with
      | [] => .failed .tooManyFormatSpecifiers
      | c2 :: rest2 =>
        if c2 = 37 then checkFormatEnd rest2
        else .failed .tooManyFormatSpecifiers

/-- `checkFormat(f, t, ts...)`, on the types of the normalised arguments. -/
def checkFormat : Str → List CType → Outcome Unit
  | f, [] => checkFormatEnd f
  | [], _ :: _ => .failed .tooFewFormatSpecifiers
  | c :: rest, t :: ts =>
    if c ≠ 37 then checkFormat rest (t :: ts)
    else
      match rest with
      | [] => .failed (.invalidFormatChar 0)
      | c2 :: rest2 =>
        if c2 = 37 then checkFormat rest2 (t :: ts)
        else if c2 = 100 || c2 = 99 then
          if !is_integral t then .failed .notAnIntegral else checkFormat rest2 ts
        else if c2 = 112 then
          if !is_pointer t then .failed .notAPointer else checkFormat rest2 ts
        else if c2 = 102 || c2 = 103 then
          if !is_floating_point t then .failed .notAFloat else checkFormat rest2 ts
        else if c2 = 115 then
          if !is_c_string t then .failed .notAString else checkFormat rest2 ts
        else .failed (.invalidFormatChar c2)

/-- What a call of `format` did: its outcome, and how many times it called the
platform formatter `snprintf`. -/
structure FormatRun where
  /-- The returned string, or the failure. -/
  result : Outcome Str
  /-- The number of `snprintf` calls made. -/
  formatterCalls : Nat
  deriving DecidableEq, Repr

/-- `format(f, args...)`. `NDEBUG` is the preprocessor switch: `checkFormat` is called
under `#ifndef NDEBUG` only, which is also when the `assert` before each `throw` of
`checkFormat` is active and stops the program at the failure site. `snprintf` is the
platform formatter, as the text it renders from the template and the normalised
arguments (called once for the size and once for the text); an argument is its type and
its value. -/
def format {ν : Type} (NDEBUG : Bool) (snprintf : Str → List (CType × ν) → Str)
    (f : Str) (args : List (ArgType × ν)) : FormatRun :=
  let nargs := args.map (fun a => (normalizeArg a.1, a.2))
  match (if NDEBUG then Outcome.ok () else checkFormat f (nargs.map Prod.fst)) with
  | .ok _ => { result := .ok (snprintf f nargs), formatterCalls := 2 }
  | .failed e => { result := .failed e, formatterCalls := 0 }
  | .undefined => { result := .undefined, formatterCalls := 0 }
  | .diverged => { result := .diverged, formatterCalls := 0 }

/-! ## Specification-side notions for the façade -/

/-- The conversion characters of a template, reading left to right: "%%" is a literal and
contributes nothing, every other `%` contributes the character that follows it (`0`, the
terminator, when the template ends there). -/
def specifiers : Str → List Byte
  | [] => []
  | c :: rest =>
    if c ≠ 37 then specifiers rest
    else
      match rest with
      | [] => [0]
      | c2 :: rest2 => if c2 = 37 then specifiers rest2 else c2 :: specifiers rest2

/-- The table of the specification: `d`, `c` take an integer; `f`, `g` a floating-point
value; `p` a pointer; `s` a pointer to a byte string. -/
def specifierAllows (c : Byte) : CType → Bool
  | .long => c = 100 || c = 99
  | .double => c = 102 || c = 103
  | .ptr toChar => c = 112 || (c = 115 && toChar)

/-- The conversion letters `d`, `c`, `p`, `f`, `g`, `s`. -/
def isConversionLetter (c : Byte) : Bool :=
  c = 100 || c = 99 || c = 112 || c = 102 || c = 103 || c = 115

/-- The failure of a conversion letter met with an argument its row of the table does not
allow. -/
def kindMismatch (c : Byte) : Failure :=
  if c = 100 || c = 99 then .notAnIntegral
  else if c = 112 then .notAPointer
  else if c = 102 || c = 103 then .notAFloat
  else .notAString

/-- Lock-step walk of conversion characters and argument types: what `checkFormat` does,
seen on the list of conversion characters. -/
def walk : List Byte → List CType → Outcome Unit
  | [], [] => .ok ()
  | _ :: _, [] => .failed .tooManyFormatSpecifiers
  | [], _ :: _ => .failed .tooFewFormatSpecifiers
  | c :: cs, t :: ts =>
    if isConversionLetter c then
      if specifierAllows c t then walk cs ts else .failed (kindMismatch c)
    else .failed (.invalidFormatChar c)

/-- A template and an argument list are well-typed: every conversion character of the
template is one of the six letters, there are as many of them as arguments, and each
letter allows the normalised type of the argument at its position. -/
def WellTyped (f : Str) (args : List ArgType) : Prop :=
  (∀ c ∈ specifiers f, isConversionLetter c = true) ∧
  (specifiers f).length = args.length ∧
  ∀ p ∈ (specifiers f).zip (args.map normalizeArg), specifierAllows p.1 p.2 = true

/-! ## Specification-side notions for tokenize, replace and trim -/

/-- The fields of a text cut at the leftmost, non-overlapping occurrences of `d`, scanning
left to right: `skip` bytes of the occurrence just met are still to be passed over, `cur`
is the field collected so far. The last field is the text after the last occurrence. -/
def fieldsAux (d : Str) : Str → Nat → Str → List Str
  | [], _, cur => [cur]
  | _ :: cs, skip + 1, cur => fieldsAux d cs skip cur
  | c :: cs, 0, cur =>
    if d.isPrefixOf (c :: cs) then cur :: fieldsAux d cs (d.length - 1) []
    else fieldsAux d cs 0 (cur ++ [c])

/-- All the fields of `s` cut at `d`, empty ones included. -/
def fields (d s : Str) : List Str := fieldsAux d s 0 []

/-- The fields of `s`, the final one being left out when it is empty. -/
def tokenizeSpec (d s : Str) : List Str :=
  if (fields d s).getLast? = some [] then (fields d s).dropLast else fields d s

/-- The `join` of the round-trip laws of the specification (the header has no such
function): the strings of `l` concatenated, with `d` between consecutive ones. -/
def join (l : List Str) (d : Str) : Str := List.intercalate d l

/-- The text with `r` substituted for each of the leftmost, non-overlapping occurrences
of `n`, scanning the original text left to right: `skip` bytes of the occurrence just met
are still to be passed over. -/
def substituteAux (n r : Str) : Str → Nat → Str
  | [], _ => []
  | _ :: cs, skip + 1 => substituteAux n r cs skip
  | c :: cs, 0 =>
    if n.isPrefixOf (c :: cs) then r ++ substituteAux n r cs (n.length - 1)
    else c :: substituteAux n r cs 0

/-- The specification of `replace`. -/
def substitute (s n r : Str) : Str := substituteAux n r s 0

/-- The specification of `trim`: the longest prefix and the longest suffix of trim bytes
removed. -/
def trimSpec (s : Str) : Str := (s.dropWhile isTrimByte).rdropWhile isTrimByte

/-! ## Specification-side notions for dos2unix, urlEncode and the case mapping -/

/-- The text with every CR LF pair replaced by a single LF, every other byte kept. -/
def dos2unixSpec : Str → Str
  | [] => []
  | [c] => [c]
  | c :: c2 :: rest =>
    if c = 13 ∧ c2 = 10 then 10 :: dos2unixSpec rest else c :: dos2unixSpec (c2 :: rest)

/-- The bytes the specification has `urlEncode` keep: ASCII digits and letters, and
`-`, `_`, `.`, `!`, `~`, `*`, `'`, `(`, `)`. -/
def isSafeByte (b : Byte) : Bool :=
  (48 ≤ b.val && b.val ≤ 57) || (65 ≤ b.val && b.val ≤ 90) || (97 ≤ b.val && b.val ≤ 122) ||
    [45, 95, 46, 33, 126, 42, 39, 40, 41].contains b

/-- The lowercase hexadecimal numeral of a byte without leading zero: one digit below 16,
two digits from 16 on. -/
def hexNumeral (b : Byte) : Str :=
  if b.val < 16 then [hexDigit b.val] else [hexDigit (b.val / 16), hexDigit (b.val % 16)]

/-- The value of a lowercase hexadecimal digit character. -/
def hexDigitValue (c : Byte) : Nat :=
  if 48 ≤ c.val ∧ c.val ≤ 57 then c.val - 48 else c.val - 87

/-- The value of a hexadecimal numeral. -/
def hexValue (l : Str) : Nat := l.foldl (fun acc c => 16 * acc + hexDigitValue c) 0

/-- The encoding of one byte by the specification. -/
def enc (b : Byte) : Str :=
  if isSafeByte b then [b] else if b = 32 then [43] else 37 :: hexNumeral b

/-- The bytes an encoded text is made of: ASCII digits and letters, and
`-`, `_`, `.`, `!`, `~`, `*`, `'`, `(`, `)`, `+`, `%`. -/
def isEncodedByte (b : Byte) : Bool :=
  isSafeByte b || b = 43 || b = 37

/-- Modelled from the spec: `std::tolower` of the platform library, in the ASCII-only
mapping of the specification (that of the "C" locale): `A`..`Z` to `a`..`z`, every other
byte unchanged. -/
def asciiToLower (c : Byte) : Byte :=
  if 65 ≤ c.val ∧ c.val ≤ 90 then Fin.ofNat (c.val + 32) else c

/-- Modelled from the spec: `std::toupper` of the platform library, in the ASCII-only
mapping of the specification (that of the "C" locale): `a`..`z` to `A`..`Z`, every other
byte unchanged. -/
def asciiToUpper (c : Byte) : Byte :=
  if 97 ≤ c.val ∧ c.val ≤ 122 then Fin.ofNat (c.val - 32) else c

set_option maxRecDepth 100000

/-! ## Lemmas on the façade -/

theorem checkFormatEnd_eq_walk : ∀ f : Str, checkFormatEnd f = walk (specifiers f) []
  | [] => rfl
  | [c] => by
    by_cases h : c = 37 <;> simp [checkFormatEnd, specifiers, walk, h]
  | c :: c2 :: rest2 => by
    have ih1 := checkFormatEnd_eq_walk (c2 :: rest2)
    have ih2 := checkFormatEnd_eq_walk rest2
    by_cases h : c = 37
    · by_cases h2 : c2 = 37
      · simp only [checkFormatEnd, specifiers, h, h2, ih2]; simp
      · simp [checkFormatEnd, specifiers, walk, h, h2]
    · rw [checkFormatEnd, specifiers]; simp only [ne_eq, h, not_false_eq_true, if_true]
      exact ih1

theorem checkFormat_eq_walk : ∀ (f : Str) (ts : List CType),
    checkFormat f ts = walk (specifiers f) ts
  | f, [] => by rw [checkFormat]; exact checkFormatEnd_eq_walk f
  | [], t :: ts => by simp [checkFormat, specifiers, walk]
  | [c], t :: ts => by
    by_cases h : c = 37
    · subst h; simp [checkFormat, specifiers, walk, isConversionLetter]
    · simp [checkFormat, specifiers, walk, h]
  | c :: c2 :: rest2, t :: ts => by
    have ih1 := checkFormat_eq_walk (c2 :: rest2) (t :: ts)
    have ih2 := checkFormat_eq_walk rest2 (t :: ts)
    have ih3 := checkFormat_eq_walk rest2 ts
    by_cases h : c = 37
    · by_cases h2 : c2 = 37
      · simp only [checkFormat, specifiers, h, h2, ih2]; simp
      · subst h
        rw [checkFormat, specifiers]
        simp only [ne_eq, not_true_eq_false, if_false, h2, walk, ih3]
        clear ih1 ih2
        rcases t with _ | _ | (_ | _) <;>
          by_cases hd : c2 = 100 <;> by_cases hc : c2 = 99 <;> by_cases hp : c2 = 112 <;>
          by_cases hf : c2 = 102 <;> by_cases hg : c2 = 103 <;> by_cases hs : c2 = 115 <;>
          simp_all [isConversionLetter, specifierAllows, kindMismatch, is_integral,
            is_pointer, is_floating_point, is_c_string]
    · rw [checkFormat, specifiers]; simp only [ne_eq, h, not_false_eq_true, if_true]
      exact ih1

theorem walk_allowed : ∀ (cs : List Byte) (ts : List CType),
    (∀ p ∈ cs.zip ts, isConversionLetter p.1 = true ∧ specifierAllows p.1 p.2 = true) →
    walk cs ts =
      if ts.length < cs.length then .failed .tooManyFormatSpecifiers
      else if cs.length < ts.length then .failed .tooFewFormatSpecifiers
      else .ok ()
  | [], [], _ => by simp [walk]
  | _ :: _, [], _ => by simp [walk]
  | [], _ :: _, _ => by simp [walk]
  | c :: cs, t :: ts, h => by
    have hct := h (c, t) (by simp)
    have ih := walk_allowed cs ts (fun p hp => h p (by
      rw [List.zip_cons_cons]; exact List.mem_cons_of_mem _ hp))
    simp only [walk, hct.1, hct.2, if_true, ih, List.length_cons, Nat.add_lt_add_iff_right]

theorem walk_mismatch : ∀ (i : Nat) (cs : List Byte) (ts : List CType) (c : Byte) (t : CType),
    cs[i]? = some c → ts[i]? = some t →
    (∀ j c0 t0, j < i → cs[j]? = some c0 → ts[j]? = some t0 →
      isConversionLetter c0 = true ∧ specifierAllows c0 t0 = true) →
    isConversionLetter c = true → specifierAllows c t = false →
    walk cs ts = .failed (kindMismatch c)
  | 0, c0 :: cs, t0 :: ts, c, t, hc, ht, _, hl, hn => by
    simp at hc ht; subst hc; subst ht
    simp [walk, hl, hn]
  | i + 1, c0 :: cs, t0 :: ts, c, t, hc, ht, hpre, hl, hn => by
    have h0 := hpre 0 c0 t0 (Nat.succ_pos i) (by simp) (by simp)
    have ih := walk_mismatch i cs ts c t (by simpa using hc) (by simpa using ht)
      (fun j c1 t1 hj h1 h2 => hpre (j + 1) c1 t1 (by omega) (by simpa using h1)
        (by simpa using h2)) hl hn
    simp [walk, h0.1, h0.2, ih]
  | _, [], _, _, _, hc, _, _, _, _ => by simp at hc
  | _, _ :: _, [], _, _, _, ht, _, _, _ => by simp at ht

theorem walk_invalid : ∀ (cs : List Byte) (ts : List CType),
    (∃ c ∈ cs, isConversionLetter c = false) → ∃ e, walk cs ts = .failed e
  | [], _, h => by simp at h
  | _ :: _, [], _ => ⟨_, rfl⟩
  | c :: cs, t :: ts, h => by
    by_cases hl : isConversionLetter c = true
    · by_cases ha : specifierAllows c t = true
      · have hex : ∃ c ∈ cs, isConversionLetter c = false := by
          obtain ⟨x, hx, hxl⟩ := h
          rcases List.mem_cons.1 hx with rfl | hx
          · rw [hl] at hxl; exact absurd hxl (by simp)
          · exact ⟨x, hx, hxl⟩
        obtain ⟨e, he⟩ := walk_invalid cs ts hex
        exact ⟨e, by simp [walk, hl, ha, he]⟩
      · exact ⟨kindMismatch c, by simp [walk, hl, ha]⟩
    · exact ⟨.invalidFormatChar c, by simp [walk, hl]⟩

/-! ## Claims on the façade -/

/-- C1: for every well-typed template and argument list, `checkFormat` on the normalised
arguments returns without raising any error. -/
theorem checkFormat_wellTyped (f : Str) (args : List ArgType) (h : WellTyped f args) :
    checkFormat f (args.map normalizeArg) = .ok () := by
  obtain ⟨hl, hn, ha⟩ := h
  rw [checkFormat_eq_walk, walk_allowed _ _ (fun p hp => ⟨hl p.1 (List.of_mem_zip hp).1, ha p hp⟩)]
  simp [hn]

/-- Witness of C1: `format("%s is %d years old", "Ada", 36)` passes validation. -/
theorem checkFormat_wellTyped_witness :
    WellTyped (bytes ("%s is %d years old")) [.pointer true, .integral] ∧
    checkFormat (bytes ("%s is %d years old"))
      ([ArgType.pointer true, ArgType.integral].map normalizeArg) = .ok () :=
  ⟨by unfold WellTyped; decide, checkFormat_wellTyped _ _ (by unfold WellTyped; decide)⟩

/-- The switch of `format`: in a build with `NDEBUG`, where `checkFormat` is compiled
out, `format("%d", "not a number")` goes to the formatter unvalidated. Validation belongs
to the debug build, which is where the specification places it. -/
theorem format_release_skips_validation :
    specifiers (bytes ("%d")) = [100] ∧
    isConversionLetter 100 = true ∧
    specifierAllows 100 (normalizeArg (.pointer true)) = false ∧
    format true (fun (f : Str) (_ : List (CType × Unit)) => f) (bytes ("%d"))
      [(.pointer true, ())] = { result := .ok (bytes ("%d")), formatterCalls := 2 } := by
  decide

/-- C2: when a conversion letter is paired positionally with a normalised argument its
row of the table does not allow, all earlier pairs being valid, `checkFormat` raises the
kind-mismatch error of that letter; and `format`, in the debug build in which the
specification has it validate (`NDEBUG` not defined), raises that error without having
called the formatter. -/
theorem format_kind_mismatch {ν : Type} (snprintf : Str → List (CType × ν) → Str)
    (f : Str) (args : List (ArgType × ν)) (i : Nat) (c : Byte) (a : ArgType × ν)
    (hc : (specifiers f)[i]? = some c) (ha : args[i]? = some a)
    (hpre : ∀ j c0 a0, j < i → (specifiers f)[j]? = some c0 → args[j]? = some a0 →
      isConversionLetter c0 = true ∧ specifierAllows c0 (normalizeArg a0.1) = true)
    (hl : isConversionLetter c = true)
    (hn : specifierAllows c (normalizeArg a.1) = false) :
    checkFormat f (args.map (fun a => normalizeArg a.1)) = .failed (kindMismatch c) ∧
    format false snprintf f args = { result := .failed (kindMismatch c), formatterCalls := 0 } := by
  have key : checkFormat f (args.map (fun a => normalizeArg a.1)) =
      .failed (kindMismatch c) := by
    rw [checkFormat_eq_walk]
    refine walk_mismatch i _ _ c (normalizeArg a.1) hc (by simp [ha]) ?_ hl hn
    intro j c0 t0 hj h1 h2
    rw [List.getElem?_map] at h2
    cases h3 : args[j]? with
    | none => simp [h3] at h2
    | some a0 =>
      simp [h3] at h2
      subst h2
      exact hpre j c0 a0 hj h1 h3
  refine ⟨key, ?_⟩
  simp only [format, List.map_map]
  have : (Prod.fst ∘ fun (a : ArgType × ν) => (normalizeArg a.1, a.2)) =
      fun a => normalizeArg a.1 := rfl
  simp [this, key]

/-- Witness of C2: `format("%d", "not a number")` fails with the wrong-argument-kind error
before the formatter is called. -/
theorem format_kind_mismatch_witness :
    checkFormat (bytes ("%d")) [normalizeArg (.pointer true)] = .failed .notAnIntegral ∧
    format false (fun (f : Str) (_ : List (CType × Unit)) => f) (bytes ("%d"))
      [(.pointer true, ())] = { result := .failed .notAnIntegral, formatterCalls := 0 } :=
  format_kind_mismatch (fun f _ => f) (bytes ("%d")) [(.pointer true, ())] 0 100
    (.pointer true, ()) (by decide) (by decide) (by intro j _ _ hj; omega) (by decide)
    (by decide)

/-- C3, as stated, fails: with two valid, well-typed `%d` for one argument the error is
"Too many format specifiers", not "too few"; with one `%d` for two arguments it is
"Too few format specifiers", not "too many". -/
theorem checkFormat_arity_names_counterexample :
    specifiers (bytes ("%d%d")) = [100, 100] ∧
    specifierAllows 100 .long = true ∧
    checkFormat (bytes ("%d%d")) [.long] ≠ .failed .tooFewFormatSpecifiers ∧
    checkFormat (bytes ("%d")) [.long, .long] ≠ .failed .tooManyFormatSpecifiers := by
  decide

/-- C3, amended: when the conversion characters paired with an argument are valid and
well-typed, a template with more conversion characters than arguments fails with
"Too many format specifiers", and one with fewer fails with "Too few format
specifiers". -/
theorem checkFormat_arity (f : Str) (ts : List CType)
    (h : ∀ p ∈ (specifiers f).zip ts,
      isConversionLetter p.1 = true ∧ specifierAllows p.1 p.2 = true) :
    (ts.length < (specifiers f).length →
      checkFormat f ts = .failed .tooManyFormatSpecifiers) ∧
    ((specifiers f).length < ts.length →
      checkFormat f ts = .failed .tooFewFormatSpecifiers) := by
  rw [checkFormat_eq_walk, walk_allowed _ _ h]
  constructor
  · intro hlt; simp [hlt]
  · intro hlt; simp [hlt, Nat.lt_asymm hlt]

/-- Witness of C3 amended: both directions on concrete templates. -/
theorem checkFormat_arity_witness :
    checkFormat (bytes ("%d%d")) [.long] = .failed .tooManyFormatSpecifiers ∧
    checkFormat (bytes ("%d")) [.long, .long] = .failed .tooFewFormatSpecifiers :=
  ⟨(checkFormat_arity (bytes ("%d%d")) [.long] (by decide)).1 (by decide),
   (checkFormat_arity (bytes ("%d")) [.long, .long] (by decide)).2 (by decide)⟩

/-- C4: a template with a non-escaped `%` followed by anything but `d`, `c`, `p`, `f`, `g`,
`s` (the end of the template included) makes `checkFormat` raise an error, whatever the
arguments. -/
theorem checkFormat_invalid_specifier (f : Str) (ts : List CType)
    (h : ∃ c ∈ specifiers f, isConversionLetter c = false) :
    ∃ e, checkFormat f ts = .failed e := by
  rw [checkFormat_eq_walk]
  exact walk_invalid _ ts h

/-- Witness of C4: the width digit of "%5d", the length modifier of "%ld" and the `%` that
ends "100%" are each rejected. -/
theorem checkFormat_invalid_specifier_witness :
    (∃ e, checkFormat (bytes ("%5d")) [.long] = .failed e) ∧
    (∃ e, checkFormat (bytes ("%ld")) [.long] = .failed e) ∧
    (∃ e, checkFormat (bytes ("100%")) [] = .failed e) :=
  ⟨checkFormat_invalid_specifier (bytes ("%5d")) [.long] ⟨53, by decide, by decide⟩,
   checkFormat_invalid_specifier (bytes ("%ld")) [.long] ⟨108, by decide, by decide⟩,
   checkFormat_invalid_specifier (bytes ("100%")) [] ⟨0, by decide, by decide⟩⟩

/-! ## Lemmas on `find` -/

@[simp] theorem Outcome.bind_ok {α β : Type} (a : α) (k : α → Outcome β) :
    (Outcome.ok a).bind k = k a := rfl

theorem findFrom_shift (n : Str) : ∀ (t : Str) (i : Nat),
    findFrom n t i = (findFrom n t 0).map (· + i)
  | [], i => by
    by_cases h : n.isPrefixOf [] = true <;> simp [findFrom, h]
  | c :: cs, i => by
    by_cases h : n.isPrefixOf (c :: cs) = true
    · simp [findFrom, h]
    · rw [findFrom, findFrom, if_neg h, if_neg h, findFrom_shift n cs (i + 1),
        findFrom_shift n cs (0 + 1), Option.map_map]
      congr 1
      funext x
      simp only [Function.comp_apply]
      omega

theorem findFrom_some (n : Str) : ∀ (t : Str) (k : Nat), findFrom n t 0 = some k →
    n <+: t.drop k ∧ k ≤ t.length ∧ ∀ j, j < k → ¬ n <+: t.drop j
  | [], k, h => by
    by_cases hp : n.isPrefixOf [] = true
    · simp only [findFrom, hp, if_true, Option.some.injEq] at h
      subst h
      exact ⟨by simpa using List.isPrefixOf_iff_prefix.1 hp, Nat.le_refl _, by simp⟩
    · simp [findFrom, hp] at h
  | c :: cs, k, h => by
    by_cases hp : n.isPrefixOf (c :: cs) = true
    · simp only [findFrom, hp, if_true, Option.some.injEq] at h
      subst h
      exact ⟨by simpa using List.isPrefixOf_iff_prefix.1 hp, Nat.zero_le _, by simp⟩
    · rw [findFrom, if_neg hp, findFrom_shift] at h
      cases hk : findFrom n cs 0 with
      | none => simp [hk] at h
      | some k0 =>
        simp only [hk, Option.map_some', Option.some.injEq] at h
        subst h
        obtain ⟨h1, h2, h3⟩ := findFrom_some n cs k0 hk
        refine ⟨by simpa using h1, by simpa using h2, ?_⟩
        intro j hj
        cases j with
        | zero => simpa using fun hpre => hp (List.isPrefixOf_iff_prefix.2 hpre)
        | succ j => simpa using h3 j (by omega)

theorem findFrom_none (n : Str) : ∀ (t : Str), findFrom n t 0 = none →
    ∀ j, ¬ n <+: t.drop j
  | [], h, j => by
    by_cases hp : n.isPrefixOf [] = true
    · simp [findFrom, hp] at h
    · simpa using fun hpre => hp (List.isPrefixOf_iff_prefix.2 hpre)
  | c :: cs, h, j => by
    by_cases hp : n.isPrefixOf (c :: cs) = true
    · simp [findFrom, hp] at h
    · rw [findFrom, if_neg hp, findFrom_shift] at h
      have hk : findFrom n cs 0 = none := by simpa using h
      cases j with
      | zero => simpa using fun hpre => hp (List.isPrefixOf_iff_prefix.2 hpre)
      | succ j => simpa using findFrom_none n cs hk j

theorem prefix_drop_length {n t : Str} {k : Nat} (hk : k ≤ t.length) (h : n <+: t.drop k) :
    k + n.length ≤ t.length := by
  have := h.length_le
  rw [List.length_drop] at this
  omega

theorem findFrom_eq_some {n t : Str} {k : Nat} (h1 : n <+: t.drop k)
    (h3 : ∀ j, j < k → ¬ n <+: t.drop j) : findFrom n t 0 = some k := by
  cases hf : findFrom n t 0 with
  | none => exact absurd h1 (findFrom_none n t hf k)
  | some k0 =>
    obtain ⟨g1, _, g3⟩ := findFrom_some n t k0 hf
    rcases Nat.lt_trichotomy k0 k with hlt | heq | hgt
    · exact absurd g1 (h3 k0 hlt)
    · rw [heq]
    · exact absurd h1 (g3 k hgt)

theorem findFrom_eq_none_iff (n t : Str) : findFrom n t 0 = none ↔ ¬ n <:+: t := by
  constructor
  · intro h hin
    obtain ⟨u, hu1, hu2⟩ := List.infix_iff_prefix_suffix.1 hin
    obtain ⟨v, hv⟩ := hu2
    have : u = t.drop v.length := by rw [← hv]; simp
    exact findFrom_none n t h v.length (this ▸ hu1)
  · intro h
    cases hf : findFrom n t 0 with
    | none => rfl
    | some k =>
      exact absurd (List.infix_iff_prefix_suffix.2
        ⟨_, (findFrom_some n t k hf).1, List.drop_suffix k t⟩) h

theorem find_eq (s n : Str) (pos : Nat) (h : pos ≤ s.length) :
    find s n pos = (findFrom n (s.drop pos) 0).map (· + pos) := by
  rw [find, if_pos h, findFrom_shift]

/-! ## Lemmas on the specification functions -/

theorem isPrefixOf_nil_false {d : Str} (hd : d ≠ []) : d.isPrefixOf ([] : Str) = false := by
  cases d with
  | nil => exact absurd rfl hd
  | cons a l => rfl

theorem findFrom_nil {d : Str} (hd : d ≠ []) : findFrom d [] 0 = none := by
  simp [findFrom, isPrefixOf_nil_false hd]

theorem fieldsAux_skip (d : Str) : ∀ (t : Str) (k : Nat) (cur : Str), k ≤ t.length →
    fieldsAux d t k cur = fieldsAux d (t.drop k) 0 cur
  | _, 0, _, _ => by simp
  | [], k + 1, _, h => by simp at h
  | c :: cs, k + 1, cur, h => by
    rw [fieldsAux, List.drop_succ_cons]
    exact fieldsAux_skip d cs k cur (by simpa using h)

theorem fieldsAux_unfold (d : Str) (hd : d ≠ []) : ∀ (t cur : Str),
    fieldsAux d t 0 cur =
      match findFrom d t 0 with
      | none => [cur ++ t]
      | some k => (cur ++ t.take k) :: fieldsAux d (t.drop (k + d.length)) 0 []
  | [], cur => by simp [findFrom_nil hd, fieldsAux]
  | c :: cs, cur => by
    by_cases hp : d.isPrefixOf (c :: cs) = true
    · have hlen : d.length ≤ cs.length + 1 := by
        simpa using (List.isPrefixOf_iff_prefix.1 hp).length_le
      have hpos : 0 < d.length := List.length_pos.2 hd
      rw [fieldsAux, if_pos hp, fieldsAux_skip d cs (d.length - 1) [] (by omega)]
      simp only [findFrom, hp, if_true, List.take_zero, List.append_nil, Nat.zero_add]
      have : d.length = (d.length - 1) + 1 := by omega
      conv_rhs => rw [this, List.drop_succ_cons]
    · have hs : findFrom d (c :: cs) 0 = (findFrom d cs 0).map (· + 1) := by
        rw [findFrom, if_neg hp, findFrom_shift]
      rw [fieldsAux, if_neg hp, fieldsAux_unfold d hd cs (cur ++ [c]), hs]
      cases hk : findFrom d cs 0 with
      | none => simp
      | some k =>
        simp only [Option.map_some', List.append_assoc, List.singleton_append,
          List.take_succ_cons]
        rw [show k + 1 + d.length = (k + d.length) + 1 by omega, List.drop_succ_cons]

theorem fields_unfold (d : Str) (hd : d ≠ []) (t : Str) :
    fields d t =
      match findFrom d t 0 with
      | none => [t]
      | some k => t.take k :: fields d (t.drop (k + d.length)) := by
  rw [fields, fieldsAux_unfold d hd]
  cases findFrom d t 0 <;> simp [fields]

theorem substituteAux_skip (n r : Str) : ∀ (t : Str) (k : Nat), k ≤ t.length →
    substituteAux n r t k = substituteAux n r (t.drop k) 0
  | _, 0, _ => by simp
  | [], k + 1, h => by simp at h
  | c :: cs, k + 1, h => by
    rw [substituteAux, List.drop_succ_cons]
    exact substituteAux_skip n r cs k (by simpa using h)

theorem substituteAux_unfold (n r : Str) (hn : n ≠ []) : ∀ (t : Str),
    substituteAux n r t 0 =
      match findFrom n t 0 with
      | none => t
      | some k => t.take k ++ r ++ substituteAux n r (t.drop (k + n.length)) 0
  | [] => by simp [findFrom_nil hn, substituteAux]
  | c :: cs => by
    by_cases hp : n.isPrefixOf (c :: cs) = true
    · have hlen : n.length ≤ cs.length + 1 := by
        simpa using (List.isPrefixOf_iff_prefix.1 hp).length_le
      have hpos : 0 < n.length := List.length_pos.2 hn
      rw [substituteAux, if_pos hp, substituteAux_skip n r cs (n.length - 1) (by omega)]
      simp only [findFrom, hp, if_true, List.take_zero, List.nil_append, Nat.zero_add]
      have : n.length = (n.length - 1) + 1 := by omega
      conv_rhs => rw [this, List.drop_succ_cons]
    · have hs : findFrom n (c :: cs) 0 = (findFrom n cs 0).map (· + 1) := by
        rw [findFrom, if_neg hp, findFrom_shift]
      rw [substituteAux, if_neg hp, substituteAux_unfold n r hn cs, hs]
      cases hk : findFrom n cs 0 with
      | none => simp
      | some k =>
        simp only [Option.map_some', List.take_succ_cons, List.cons_append]
        rw [show k + 1 + n.length = (k + n.length) + 1 by omega, List.drop_succ_cons]

theorem fields_ne_nil (d : Str) (hd : d ≠ []) (t : Str) : fields d t ≠ [] := by
  rw [fields_unfold d hd]
  cases findFrom d t 0 <;> simp

theorem tokenizeSpec_of_none {d t : Str} (hd : d ≠ []) (h : findFrom d t 0 = none) :
    tokenizeSpec d t = if t = [] then [] else [t] := by
  have hf : fields d t = [t] := by rw [fields_unfold d hd, h]
  rw [tokenizeSpec, hf]
  by_cases ht : t = []
  · simp [ht]
  · have : ¬ ([] : Str) = t := fun h0 => ht h0.symm
    simp [ht, this]

theorem tokenizeSpec_of_some {d t : Str} {k : Nat} (hd : d ≠ [])
    (h : findFrom d t 0 = some k) :
    tokenizeSpec d t = t.take k :: tokenizeSpec d (t.drop (k + d.length)) := by
  have hf : fields d t = t.take k :: fields d (t.drop (k + d.length)) := by
    rw [fields_unfold d hd, h]
  have hne := fields_ne_nil d hd (t.drop (k + d.length))
  rw [tokenizeSpec, tokenizeSpec, hf]
  generalize fields d (t.drop (k + d.length)) = L at hne
  cases L with
  | nil => exact absurd rfl hne
  | cons b l =>
    rw [List.getLast?_cons_cons, List.dropLast_cons₂]
    split <;> rfl

/-! ## The loops of tokenize and replace -/

theorem tokenizeLoop_spec (s d : Str) (hd : d ≠ []) : ∀ (fuel : Nat) (tokens : List Str)
    (index : Nat), index ≤ s.length → s.length - index < fuel →
    (tokenizeLoop s d fuel tokens index).bind (tokenizeRest s) =
      .ok (tokens ++ tokenizeSpec d (s.drop index))
  | 0, _, _, _, h => absurd h (Nat.not_lt_zero _)
  | fuel + 1, tokens, index, hi, hfuel => by
    rw [tokenizeLoop, find_eq s d index hi]
    cases hf : findFrom d (s.drop index) 0 with
    | none =>
      simp only [Option.map_none', Outcome.bind_ok, tokenizeRest, tokenizeSpec_of_none hd hf]
      by_cases hlt : index < s.length
      · have : s.drop index ≠ [] := by
          intro h0
          have := congrArg List.length h0
          simp at this
          omega
        simp [hlt, this, substrFrom, hi]
      · have : s.drop index = [] := List.drop_eq_nil_of_le (by omega)
        simp [hlt, this]
    | some k =>
      obtain ⟨h1, h2, _⟩ := findFrom_some d _ k hf
      have hlen := prefix_drop_length h2 h1
      rw [List.length_drop] at hlen h2
      have hpos : 0 < d.length := List.length_pos.2 hd
      simp only [Option.map_some', substr, hi, if_true, Nat.add_sub_cancel, Outcome.bind_ok]
      rw [tokenizeLoop_spec s d hd fuel _ (k + index + d.length) (by omega) (by omega),
        tokenizeSpec_of_some hd hf, List.drop_drop]
      simp only [List.append_assoc, List.singleton_append]
      rw [show index + (k + d.length) = k + index + d.length by omega]

theorem replaceLoop_spec (n r : Str) (hn : n ≠ []) : ∀ (fuel : Nat) (pre t : Str),
    t.length < fuel →
    replaceLoop n r fuel (pre ++ t) pre.length = .ok (pre ++ substituteAux n r t 0)
  | 0, _, _, h => absurd h (Nat.not_lt_zero _)
  | fuel + 1, pre, t, hfuel => by
    rw [replaceLoop, find_eq _ n pre.length (by simp), List.drop_left,
      substituteAux_unfold n r hn t]
    cases hf : findFrom n t 0 with
    | none => simp
    | some k =>
      obtain ⟨h1, h2, _⟩ := findFrom_some n _ k hf
      have hlen := prefix_drop_length h2 h1
      have hpos : 0 < n.length := List.length_pos.2 hn
      have htake : (pre ++ t).take (k + pre.length) = pre ++ t.take k := by
        rw [Nat.add_comm, List.take_append]
      have hdrop : (pre ++ t).drop (k + pre.length + n.length) = t.drop (k + n.length) := by
        rw [show k + pre.length + n.length = pre.length + (k + n.length) by omega,
          List.drop_append]
      have hle : k + pre.length ≤ (pre ++ t).length := by simp; omega
      simp only [Option.map_some', stringReplace, hle, if_true, Outcome.bind_ok, htake, hdrop]
      have hl : k + pre.length + r.length = (pre ++ t.take k ++ r).length := by
        simp [List.length_take, Nat.min_eq_left h2]; omega
      rw [hl, replaceLoop_spec n r hn fuel _ _ (by simp; omega)]
      simp

theorem tokenize_ok (s d : Str) (fuel : Nat) (hd : d ≠ []) (hfuel : s.length < fuel) :
    tokenize fuel s d = .ok (tokenizeSpec d s) := by
  have := tokenizeLoop_spec s d hd fuel [] 0 (Nat.zero_le _) (by omega)
  simpa [tokenize] using this

theorem join_nil (d : Str) : join [] d = [] := rfl

theorem join_singleton (a d : Str) : join [a] d = a := by
  simp [join, List.intercalate, List.intersperse]

theorem join_cons_cons (a b d : Str) (l : List Str) :
    join (a :: b :: l) d = a ++ d ++ join (b :: l) d := by
  simp [join, List.intercalate, List.intersperse]

theorem join_cons_of_ne_nil (a d : Str) {l : List Str} (hl : l ≠ []) :
    join (a :: l) d = a ++ d ++ join l d := by
  cases l with
  | nil => exact absurd rfl hl
  | cons b l => exact join_cons_cons a b d l

theorem split_at_occurrence {d t : Str} {k : Nat} (h : findFrom d t 0 = some k) :
    t = t.take k ++ d ++ t.drop (k + d.length) := by
  obtain ⟨h1, _, _⟩ := findFrom_some d t k h
  obtain ⟨u, hu⟩ := h1
  have hdrop : t.drop (k + d.length) = u := by
    rw [← List.drop_drop, ← hu, List.drop_left]
  rw [hdrop, List.append_assoc, hu, List.take_append_drop]

theorem rejoin_tokenizeSpec (d : Str) (hd : d ≠ []) : ∀ (n : Nat) (s : Str), s.length ≤ n →
    ¬ d <:+ s → join (tokenizeSpec d s) d = s
  | n, s, hn, hend => by
    cases hf : findFrom d s 0 with
    | none =>
      rw [tokenizeSpec_of_none hd hf]
      by_cases hs : s = []
      · simp [hs, join_nil]
      · simp [hs, join_singleton]
    | some k =>
      have hsplit := split_at_occurrence hf
      have hpos : 0 < d.length := List.length_pos.2 hd
      have hlen : (s.drop (k + d.length)).length < s.length := by
        have := congrArg List.length hsplit
        simp only [List.length_append] at this
        omega
      have hend2 : ¬ d <:+ s.drop (k + d.length) :=
        fun h => hend (h.trans (List.drop_suffix _ _))
      cases n with
      | zero => omega
      | succ n =>
        have ih := rejoin_tokenizeSpec d hd n (s.drop (k + d.length)) (by omega) hend2
        rw [tokenizeSpec_of_some hd hf]
        by_cases hnil : tokenizeSpec d (s.drop (k + d.length)) = []
        · rw [hnil, join_nil] at ih
          exfalso
          apply hend
          rw [hsplit, ← ih, List.append_nil]
          exact List.suffix_append _ _
        · rw [join_cons_of_ne_nil _ _ hnil, ih]
          exact hsplit.symm

theorem prefix_of_prefix_append {d a b : Str} (h : d <+: a ++ b) (hl : d.length ≤ a.length) :
    d <+: a := by
  rw [List.prefix_iff_eq_take] at h ⊢
  rw [List.take_append_of_le_length hl] at h
  exact h

theorem findFrom_separator {d x rest : Str} (hd : d ≠ [])
    (hx : ¬ d <:+: x ++ d.dropLast) : findFrom d (x ++ d ++ rest) 0 = some x.length := by
  apply findFrom_eq_some
  · rw [List.append_assoc, List.drop_left]
    exact List.prefix_append _ _
  · intro j hj hpre
    apply hx
    have hdl : d = d.dropLast ++ [d.getLast hd] := (List.dropLast_append_getLast hd).symm
    have hpos : 0 < d.length := List.length_pos.2 hd
    have hdrop : (x ++ d ++ rest).drop j =
        (x.drop j ++ d.dropLast) ++ ([d.getLast hd] ++ rest) := by
      rw [List.append_assoc, List.drop_append_of_le_length (Nat.le_of_lt hj)]
      conv_lhs => rw [hdl]
      simp
    rw [hdrop] at hpre
    have hpre2 : d <+: x.drop j ++ d.dropLast := by
      apply prefix_of_prefix_append hpre
      simp only [List.length_append, List.length_drop, List.length_dropLast]
      omega
    have hsuf : x.drop j ++ d.dropLast <:+ x ++ d.dropLast := by
      refine ⟨x.take j, ?_⟩
      rw [← List.append_assoc, List.take_append_drop]
    exact List.infix_iff_prefix_suffix.2 ⟨_, hpre2, hsuf⟩

theorem tokenizeSpec_join (d : Str) (hd : d ≠ []) (last : Str) (hne : last ≠ [])
    (hlast : ¬ d <:+: last) : ∀ (init : List Str),
    (∀ x ∈ init, ¬ d <:+: x ++ d.dropLast) →
    tokenizeSpec d (join (init ++ [last]) d) = init ++ [last]
  | [], _ => by
    rw [List.nil_append, join_singleton,
      tokenizeSpec_of_none hd ((findFrom_eq_none_iff d last).2 hlast)]
    simp [hne]
  | x :: init, h => by
    have ih := tokenizeSpec_join d hd last hne hlast init
      (fun y hy => h y (List.mem_cons_of_mem _ hy))
    have hf := @findFrom_separator d x (join (init ++ [last]) d) hd
      (h x (List.mem_cons_self _ _))
    rw [List.cons_append, join_cons_of_ne_nil _ _ (by simp), tokenizeSpec_of_some hd hf]
    have h1 : (x ++ d ++ join (init ++ [last]) d).take x.length = x := by
      rw [List.append_assoc, List.take_left]
    have h2 : (x ++ d ++ join (init ++ [last]) d).drop (x.length + d.length) =
        join (init ++ [last]) d := by
      rw [← List.length_append, List.drop_left]
    rw [h1, h2, ih]

/-! ## Claims on tokenize and replace -/

/-- C5: for a non-empty delimiter and enough fuel for the loop, `tokenize` returns the
fields of `s` cut at the leftmost non-overlapping occurrences of `d`, empty fields kept,
the final field left out when empty; so `[s]` when `s` is non-empty and `d` does not occur
in it, and `[]` when `s` is empty. -/
theorem tokenize_eq_tokenizeSpec (s d : Str) (fuel : Nat) (hd : d ≠ [])
    (hfuel : s.length < fuel) :
    tokenize fuel s d = .ok (tokenizeSpec d s) ∧
    (s ≠ [] → ¬ d <:+: s → tokenize fuel s d = .ok [s]) ∧
    (s = [] → tokenize fuel s d = .ok []) := by
  have h := tokenize_ok s d fuel hd hfuel
  refine ⟨h, ?_, ?_⟩
  · intro hs hno
    rw [h, tokenizeSpec_of_none hd ((findFrom_eq_none_iff d s).2 hno), if_neg hs]
  · intro hs
    rw [h, hs, tokenizeSpec_of_none hd (findFrom_nil hd)]
    simp

/-- Witness of C5: `tokenize("a,,b,", ",") = ["a", "", "b"]`. -/
theorem tokenize_eq_tokenizeSpec_witness :
    tokenize 6 (bytes ("a,,b,")) (bytes (",")) = .ok [bytes ("a"), [], bytes ("b")] :=
  (tokenize_eq_tokenizeSpec (bytes ("a,,b,")) (bytes (",")) 6 (by decide) (by decide)).1.trans
    (by decide)

/-- C6: for a non-empty delimiter `d` and a string `s` that does not end with `d`,
`tokenize` returns tokens whose join with `d` is `s`. -/
theorem join_tokenize (s d : Str) (fuel : Nat) (hd : d ≠ []) (hend : ¬ d <:+ s)
    (hfuel : s.length < fuel) :
    ∃ tokens, tokenize fuel s d = .ok tokens ∧ join tokens d = s :=
  ⟨tokenizeSpec d s, tokenize_ok s d fuel hd hfuel,
    rejoin_tokenizeSpec d hd s.length s (Nat.le_refl _) hend⟩

/-- Witness of C6: "a,,b" cut at "," and joined again. -/
theorem join_tokenize_witness :
    ∃ tokens, tokenize 5 (bytes ("a,,b")) (bytes (",")) = .ok tokens ∧
      join tokens (bytes (",")) = bytes ("a,,b") :=
  join_tokenize (bytes ("a,,b")) (bytes (",")) 5 (by decide) (by decide) (by decide)

/-- C7, as stated, fails in two ways: the one-element list `[""]` joins to the empty
string, whose tokens are `[]`; and with `d = "aa"` the list `["a", "a"]`, no element of
which contains `d`, joins to "aaaa", whose tokens are `["", ""]`. -/
theorem tokenize_join_counterexample :
    (¬ bytes (",") <:+: ([] : Str) ∧
      tokenize 4 (join [[]] (bytes (","))) (bytes (",")) = .ok [] ∧
      tokenize 4 (join [[]] (bytes (","))) (bytes (",")) ≠ .ok [[]]) ∧
    (¬ bytes ("aa") <:+: bytes ("a") ∧
      tokenize 8 (join [bytes ("a"), bytes ("a")] (bytes ("aa"))) (bytes ("aa")) =
        .ok [[], []] ∧
      tokenize 8 (join [bytes ("a"), bytes ("a")] (bytes ("aa"))) (bytes ("aa")) ≠
        .ok [bytes ("a"), bytes ("a")]) := by
  decide

/-- C7, amended: for a non-empty delimiter `d` and a non-empty list `init ++ [last]` whose
last element is non-empty and does not contain `d`, and in which no other element `x`
followed by `d` without its last byte contains `d` (so `d` neither occurs in `x` nor
straddles `x` and the delimiter after it), tokenizing the join restores the list. -/
theorem tokenize_join (d : Str) (init : List Str) (last : Str) (fuel : Nat) (hd : d ≠ [])
    (hne : last ≠ []) (hlast : ¬ d <:+: last)
    (hinit : ∀ x ∈ init, ¬ d <:+: x ++ d.dropLast)
    (hfuel : (join (init ++ [last]) d).length < fuel) :
    tokenize fuel (join (init ++ [last]) d) d = .ok (init ++ [last]) := by
  rw [tokenize_ok _ d fuel hd hfuel, tokenizeSpec_join d hd last hne hlast init hinit]

/-- Witness of C7 amended: `["a", "", "b"]` joined with "," and cut again. -/
theorem tokenize_join_witness :
    tokenize 6 (join ([bytes ("a"), []] ++ [bytes ("b")]) (bytes (","))) (bytes (",")) =
      .ok ([bytes ("a"), []] ++ [bytes ("b")]) :=
  tokenize_join (bytes (",")) [bytes ("a"), []] (bytes ("b")) 6 (by decide) (by decide)
    (by decide) (by decide) (by decide)

/-- C8: for a non-empty needle and enough fuel for the loop, `replace` returns the string
with `r` substituted for each of the leftmost non-overlapping occurrences of `n` in the
original `s`; the substituted bytes are not scanned again. -/
theorem replace_eq_substitute (s n r : Str) (fuel : Nat) (hn : n ≠ [])
    (hfuel : s.length < fuel) :
    replace fuel s n r = .ok (substitute s n r) := by
  have := replaceLoop_spec n r hn fuel [] s hfuel
  simpa [replace, substitute] using this

/-- Witness of C8: `replace("aaaa", "aa", "b") = "bb"` and `replace("a", "a", "aa") = "aa"`. -/
theorem replace_eq_substitute_witness :
    replace 5 (bytes ("aaaa")) (bytes ("aa")) (bytes ("b")) = .ok (bytes ("bb")) ∧
    replace 2 (bytes ("a")) (bytes ("a")) (bytes ("aa")) = .ok (bytes ("aa")) :=
  ⟨(replace_eq_substitute (bytes ("aaaa")) (bytes ("aa")) (bytes ("b")) 5 (by decide)
      (by decide)).trans (by decide),
   (replace_eq_substitute (bytes ("a")) (bytes ("a")) (bytes ("aa")) 2 (by decide)
      (by decide)).trans (by decide)⟩

/-- C9: when the needle `n` does not occur in `s`, `replace` returns `s` unchanged, as soon
as the loop may test its condition once. (Such a needle is non-empty: the empty string
occurs in every string.) -/
theorem replace_of_not_infix (s n r : Str) (fuel : Nat) (hno : ¬ n <:+: s)
    (hfuel : 0 < fuel) :
    replace fuel s n r = .ok s := by
  obtain ⟨f, rfl⟩ : ∃ f, fuel = f + 1 := ⟨fuel - 1, by omega⟩
  rw [replace, replaceLoop, find_eq s n 0 (Nat.zero_le _), List.drop_zero,
    (findFrom_eq_none_iff n s).2 hno]
  rfl

/-- Witness of C9: "xy" does not occur in "abc". -/
theorem replace_of_not_infix_witness :
    replace 1 (bytes ("abc")) (bytes ("xy")) (bytes ("z")) = .ok (bytes ("abc")) :=
  replace_of_not_infix (bytes ("abc")) (bytes ("xy")) (bytes ("z")) 1 (by decide) (by decide)

/-! ## trim -/

theorem charAt_of_lt {s : Str} {i : Nat} (h : i < s.length) : charAt s i = .ok (s.get ⟨i, h⟩) := by
  simp [charAt, h]

theorem trimBeginLoop_eq (s : Str) : ∀ (fuel b : Nat), b < s.length → s.length - b < fuel →
    trimBeginLoop s fuel b = .ok (b + ((s.drop b).takeWhile isTrimByte).length)
  | 0, _, _, h => absurd h (Nat.not_lt_zero _)
  | fuel + 1, b, hb, hfuel => by
    rw [trimBeginLoop, charAt_of_lt hb, Outcome.bind_ok, List.drop_eq_getElem_cons hb]
    by_cases hc : isTrimByte (s.get ⟨b, hb⟩) = true
    · have hc2 : isTrimByte s[b] = true := hc
      rw [if_pos hc, List.takeWhile_cons_of_pos hc2]
      by_cases hend : b + 1 = s.length
      · rw [if_pos hend, List.drop_eq_nil_of_le (by omega)]
        simp
      · rw [if_neg hend, trimBeginLoop_eq s fuel (b + 1) (by omega) (by omega)]
        simp only [List.length_cons]
        congr 1
        omega
    · have hc2 : ¬ isTrimByte s[b] = true := hc
      rw [if_neg hc, List.takeWhile_cons_of_neg hc2]
      simp

theorem takeWhile_eq_self_of_all {s : Str} (h : ∀ c ∈ s, isTrimByte c = true) :
    s.takeWhile isTrimByte = s := by
  rw [List.takeWhile_eq_self_iff]
  exact h

theorem trim_undefined_of_blank (s : Str) (fuel : Nat) (hall : ∀ c ∈ s, isTrimByte c = true)
    (hlen : 2 ≤ s.length) (hfuel : s.length < fuel) : trim fuel s = .undefined := by
  have hne : s ≠ [] := by
    intro h
    rw [h] at hlen
    simp at hlen
  have hb := trimBeginLoop_eq s fuel 0 (by omega) (by omega)
  rw [List.drop_zero, takeWhile_eq_self_of_all hall, Nat.zero_add] at hb
  obtain ⟨f, rfl⟩ : ∃ f, fuel = f + 1 := ⟨fuel - 1, by omega⟩
  rw [trim, if_neg hne, hb, Outcome.bind_ok]
  simp only [if_true, trimEndLoop]
  have hc : charAt ([] : Str) (s.length - 1) = .undefined := by
    have h1 : ¬ s.length - 1 < 0 := Nat.not_lt_zero _
    have h2 : ¬ s.length - 1 = 0 := by omega
    simp [charAt, h2]
  rw [hc]
  rfl

theorem take_succ_of_lt {s : Str} {e : Nat} (h : e < s.length) :
    s.take (e + 1) = s.take e ++ [s.get ⟨e, h⟩] := by
  rw [List.take_succ, List.getElem?_eq_getElem h]
  rfl

theorem trimEndLoop_eq (s : Str) (hM : s.length < SIZE_MOD) : ∀ (fuel e : Nat),
    e < s.length → e < fuel → (∃ c ∈ s.take (e + 1), isTrimByte c = false) →
    trimEndLoop s fuel e = .ok (((s.take (e + 1)).rdropWhile isTrimByte).length - 1)
  | 0, _, _, h, _ => absurd h (Nat.not_lt_zero _)
  | fuel + 1, e, he, hfuel, hex => by
    rw [trimEndLoop, charAt_of_lt he, Outcome.bind_ok, take_succ_of_lt he]
    by_cases hc : isTrimByte (s.get ⟨e, he⟩) = true
    · rw [if_pos hc, List.rdropWhile_concat_pos _ _ _ hc]
      have hex2 : ∃ c ∈ s.take e, isTrimByte c = false := by
        obtain ⟨c, hc1, hc2⟩ := hex
        rw [take_succ_of_lt he, List.mem_append] at hc1
        rcases hc1 with hc1 | hc1
        · exact ⟨c, hc1, hc2⟩
        · rw [List.mem_singleton] at hc1
          rw [hc1, hc] at hc2
          exact absurd hc2 (by simp)
      cases e with
      | zero => simp at hex2
      | succ e0 =>
        have hmod : (e0 + 1 + SIZE_MOD - 1) % SIZE_MOD = e0 := by
          rw [show e0 + 1 + SIZE_MOD - 1 = e0 + SIZE_MOD by omega, Nat.add_mod_right]
          exact Nat.mod_eq_of_lt (by omega)
        rw [hmod]
        exact trimEndLoop_eq s hM fuel e0 (by omega) (by omega) hex2
    · rw [if_neg hc, List.rdropWhile_concat_neg _ _ _ hc]
      simp only [List.length_append, List.length_take, List.length_singleton,
        Nat.add_sub_cancel, Outcome.ok.injEq]
      omega

theorem rdropWhile_append_of_ne_nil (p : Byte → Bool) (a d : Str)
    (h : d.rdropWhile p ≠ []) : (a ++ d).rdropWhile p = a ++ d.rdropWhile p := by
  have h2 : d.reverse.dropWhile p ≠ [] := by
    intro h0
    apply h
    simp [List.rdropWhile, h0]
  simp only [List.rdropWhile, List.reverse_append, List.dropWhile_append]
  have : (List.dropWhile p d.reverse).isEmpty = false := by
    cases hd : List.dropWhile p d.reverse with
    | nil => exact absurd hd h2
    | cons _ _ => rfl
  simp [this]

theorem trim_eq_trimSpec_of_nonblank (s : Str) (fuel : Nat)
    (hex : ∃ c ∈ s, isTrimByte c = false) (hM : s.length < SIZE_MOD)
    (hfuel : s.length < fuel) : trim fuel s = .ok (trimSpec s) := by
  have hne : s ≠ [] := by
    obtain ⟨c, hc, _⟩ := hex
    exact List.ne_nil_of_mem hc
  have hpos : 0 < s.length := List.length_pos.2 hne
  have hsplit : s.takeWhile isTrimByte ++ s.dropWhile isTrimByte = s :=
    List.takeWhile_append_dropWhile isTrimByte s
  have hD : s.dropWhile isTrimByte ≠ [] := by
    intro h0
    obtain ⟨c, hc, hc2⟩ := hex
    have := (List.dropWhile_eq_nil_iff).1 h0 c hc
    rw [this] at hc2
    exact absurd hc2 (by simp)
  have hB : (s.dropWhile isTrimByte).rdropWhile isTrimByte ≠ [] := by
    intro h0
    have hall := (List.rdropWhile_eq_nil_iff).1 h0
    have hlen : 0 < (s.dropWhile isTrimByte).length := List.length_pos.2 hD
    have h1 := List.dropWhile_get_zero_not isTrimByte s hlen
    exact h1 (hall _ (List.get_mem _ _ _))
  have hR : s.rdropWhile isTrimByte =
      s.takeWhile isTrimByte ++ (s.dropWhile isTrimByte).rdropWhile isTrimByte := by
    conv_lhs => rw [← hsplit]
    exact rdropWhile_append_of_ne_nil _ _ _ hB
  have hAlen : (s.takeWhile isTrimByte).length + (s.dropWhile isTrimByte).length =
      s.length := by
    rw [← List.length_append, hsplit]
  have hDlen : 0 < (s.dropWhile isTrimByte).length := List.length_pos.2 hD
  have hBlen : 0 < ((s.dropWhile isTrimByte).rdropWhile isTrimByte).length :=
    List.length_pos.2 hB
  have hBle : ((s.dropWhile isTrimByte).rdropWhile isTrimByte).length ≤
      (s.dropWhile isTrimByte).length := (List.rdropWhile_prefix isTrimByte _).length_le
  have hb := trimBeginLoop_eq s fuel 0 hpos (by omega)
  rw [List.drop_zero, Nat.zero_add] at hb
  have he := trimEndLoop_eq s hM fuel (s.length - 1) (by omega) (by omega)
    (by rw [show s.length - 1 + 1 = s.length by omega, List.take_length]; exact hex)
  rw [show s.length - 1 + 1 = s.length by omega, List.take_length, hR,
    List.length_append] at he
  have hdrop : s.drop (s.takeWhile isTrimByte).length = s.dropWhile isTrimByte := by
    have := List.drop_left (s.takeWhile isTrimByte) (s.dropWhile isTrimByte)
    rwa [hsplit] at this
  rw [trim, if_neg hne, hb, Outcome.bind_ok]
  simp only []
  rw [if_neg (by omega), he, Outcome.bind_ok, if_neg (by omega)]
  rw [show (s.takeWhile isTrimByte).length +
      ((s.dropWhile isTrimByte).rdropWhile isTrimByte).length - 1 + 1 =
      (s.takeWhile isTrimByte).length +
      ((s.dropWhile isTrimByte).rdropWhile isTrimByte).length by omega]
  have hlt : (s.takeWhile isTrimByte).length +
      ((s.dropWhile isTrimByte).rdropWhile isTrimByte).length < SIZE_MOD := by omega
  rw [Nat.mod_eq_of_lt hlt]
  rw [show (s.takeWhile isTrimByte).length +
      ((s.dropWhile isTrimByte).rdropWhile isTrimByte).length + SIZE_MOD -
      (s.takeWhile isTrimByte).length =
      ((s.dropWhile isTrimByte).rdropWhile isTrimByte).length + SIZE_MOD by omega,
    Nat.add_mod_right, Nat.mod_eq_of_lt (by omega)]
  rw [substr, if_pos (by omega), hdrop, trimSpec]
  congr 1
  exact (List.prefix_iff_eq_take.1 (List.rdropWhile_prefix isTrimByte _)).symm

theorem trim_single_blank (c : Byte) (fuel : Nat) (hc : isTrimByte c = true)
    (hfuel : 1 < fuel) : trim fuel [c] = .ok (trimSpec [c]) := by
  obtain ⟨f, rfl⟩ : ∃ f, fuel = f + 2 := ⟨fuel - 2, by omega⟩
  have hs : trimSpec [c] = [] := by simp [trimSpec, hc]
  have h0 : isTrimByte (0 : Byte) = false := by decide
  simp [trim, trimBeginLoop, trimEndLoop, charAt, hc, hs, h0, Outcome.bind]

/-! ## Claim on trim -/

/-- C10 does not hold of the code: on a string of two or more bytes, all of them trim
bytes, `trim` empties the string after its first loop and then still reads
`aString[end]` with `end = size() - 1` of the original string, above the size of the
now empty string. The outcome is undefined behaviour, not the empty string that the
specification `trimSpec` gives. -/
theorem trim_blank_undefined (s : Str) (fuel : Nat) (hall : ∀ c ∈ s, isTrimByte c = true)
    (hlen : 2 ≤ s.length) (hfuel : s.length < fuel) :
    trim fuel s = .undefined ∧ trimSpec s = [] ∧ trim fuel s ≠ .ok (trimSpec s) := by
  have h := trim_undefined_of_blank s fuel hall hlen hfuel
  refine ⟨h, ?_, ?_⟩
  · rw [trimSpec, (List.dropWhile_eq_nil_iff).2 hall]
    rfl
  · rw [h]
    exact fun h0 => Outcome.noConfusion h0

/-- Witness of C10's failure: `trim(" \t\r\n ")`. -/
theorem trim_blank_undefined_witness :
    trim 6 (bytes (" \t\r\n ")) = .undefined ∧ trimSpec (bytes (" \t\r\n ")) = [] ∧
      trim 6 (bytes (" \t\r\n ")) ≠ .ok (trimSpec (bytes (" \t\r\n "))) :=
  trim_blank_undefined (bytes (" \t\r\n ")) 6 (by decide) (by decide) (by decide)

/-! ## trim, applied twice and read by read -/

theorem trimSpec_ne_nil_of_nonblank {s : Str} (hex : ∃ c ∈ s, isTrimByte c = false) :
    trimSpec s ≠ [] := by
  have hD : s.dropWhile isTrimByte ≠ [] := by
    intro h0
    obtain ⟨c, hc, hc2⟩ := hex
    have := (List.dropWhile_eq_nil_iff).1 h0 c hc
    rw [this] at hc2
    exact absurd hc2 (by simp)
  intro h0
  have hall := (List.rdropWhile_eq_nil_iff).1 h0
  have h1 := List.head_dropWhile_not isTrimByte s hD
  have h2 := hall _ (List.head_mem hD)
  rw [h2] at h1
  exact absurd h1 (by simp)

theorem trimSpec_nonblank {s : Str} (hex : ∃ c ∈ s, isTrimByte c = false) :
    ∃ c ∈ trimSpec s, isTrimByte c = false := by
  have hne := trimSpec_ne_nil_of_nonblank hex
  refine ⟨(trimSpec s).getLast hne, List.getLast_mem hne, ?_⟩
  have := List.rdropWhile_last_not isTrimByte (s.dropWhile isTrimByte) hne
  simpa [trimSpec] using this

theorem trimSpec_length_le (s : Str) : (trimSpec s).length ≤ s.length :=
  Nat.le_trans (List.rdropWhile_prefix isTrimByte _).length_le
    (List.dropWhile_suffix isTrimByte).length_le

theorem trimSpec_idempotent (s : Str) : trimSpec (trimSpec s) = trimSpec s := by
  by_cases hne : trimSpec s = []
  · rw [hne]; rfl
  · have hpre : trimSpec s <+: s.dropWhile isTrimByte := List.rdropWhile_prefix isTrimByte _
    have hD : s.dropWhile isTrimByte ≠ [] := by
      intro h0
      rw [h0] at hpre
      exact hne (List.prefix_nil.1 hpre)
    have hhead := List.head_dropWhile_not isTrimByte s hD
    obtain ⟨u, hu⟩ := hpre
    cases hB : trimSpec s with
    | nil => exact absurd hB hne
    | cons b r =>
      have hb : isTrimByte b = false := by
        have h1 : (s.dropWhile isTrimByte).head hD = b := by
          simp only [← hu, hB, List.cons_append, List.head_cons]
        rw [← h1]
        exact hhead
      have hdw : (b :: r).dropWhile isTrimByte = b :: r := by
        simp [List.dropWhile, hb]
      have hidem : (b :: r).rdropWhile isTrimByte = b :: r := by
        rw [← hB, trimSpec]
        exact List.rdropWhile_idempotent _ _
      show ((b :: r).dropWhile isTrimByte).rdropWhile isTrimByte = b :: r
      rw [hdw, hidem]

theorem trim_nil (fuel : Nat) : trim fuel [] = .ok [] := by
  simp [trim]

theorem trim_idempotent_of_ok (s t : Str) (fuel : Nat) (hM : s.length < SIZE_MOD)
    (hfuel : s.length < fuel) (h : trim fuel s = .ok t) : trim fuel t = .ok t := by
  by_cases hall : ∀ c ∈ s, isTrimByte c = true
  · rcases Nat.lt_or_ge s.length 2 with hlt | hge
    · have ht : t = [] := by
        cases s with
        | nil =>
          rw [trim_nil] at h
          exact (Outcome.ok.inj h).symm
        | cons c r =>
          cases r with
          | nil =>
            have hc := hall c (List.mem_cons_self _ _)
            rw [trim_single_blank c fuel hc (by simpa using hfuel)] at h
            have hs : trimSpec [c] = [] := by simp [trimSpec, hc]
            rw [hs] at h
            exact (Outcome.ok.inj h).symm
          | cons _ _ =>
            simp only [List.length_cons] at hlt
            omega
      rw [ht]
      exact trim_nil fuel
    · rw [trim_undefined_of_blank s fuel hall hge hfuel] at h
      exact Outcome.noConfusion h
  · have hex : ∃ c ∈ s, isTrimByte c = false := by
      by_contra hno
      apply hall
      intro c hc
      by_contra hc2
      exact hno ⟨c, hc, by simpa using hc2⟩
    rw [trim_eq_trimSpec_of_nonblank s fuel hex hM hfuel] at h
    have ht : t = trimSpec s := (Outcome.ok.inj h).symm
    have hle := trimSpec_length_le s
    rw [ht, trim_eq_trimSpec_of_nonblank _ fuel (trimSpec_nonblank hex) (by omega) (by omega),
      trimSpec_idempotent]

theorem charAt_undefined_iff (s : Str) (i : Nat) : charAt s i = .undefined ↔ s.length < i := by
  unfold charAt
  by_cases h1 : i < s.length
  · simp [h1]; omega
  · by_cases h2 : i = s.length
    · simp [h2]
    · simp [h1, h2]; omega

/-! ## Claims on trim applied twice and on its reads -/

/-- C11 does not hold of the code: on a string of two or more bytes, all of them trim
bytes, `trim` has no defined result (the read above the size after the string is
emptied), so `trim` applied to the result of `trim` has none either. -/
theorem trim_trim_blank_undefined (s : Str) (fuel : Nat)
    (hall : ∀ c ∈ s, isTrimByte c = true) (hlen : 2 ≤ s.length) (hfuel : s.length < fuel) :
    (trim fuel s).bind (trim fuel) = .undefined ∧ ∀ t, trim fuel s ≠ .ok t := by
  have h := trim_undefined_of_blank s fuel hall hlen hfuel
  rw [h]
  exact ⟨rfl, fun t h0 => Outcome.noConfusion h0⟩

/-- Witness of C11's failure: `trim(trim("  "))` on two spaces. -/
theorem trim_trim_blank_undefined_witness :
    (trim 3 (bytes ("  "))).bind (trim 3) = .undefined ∧
      ∀ t, trim 3 (bytes ("  ")) ≠ .ok t :=
  trim_trim_blank_undefined (bytes ("  ")) 3 (by decide) (by decide) (by decide)

/-- C16 does not hold of the code: on a string of two or more bytes, all of them trim
bytes, the first loop ends with `begin == size()`, the string is emptied, and the second
loop reads `aString[end]` at `end = size() - 1` of the original string, an index above
the length `0` the string has at that moment. -/
theorem trim_blank_read_out_of_range (s : Str) (fuel : Nat)
    (hall : ∀ c ∈ s, isTrimByte c = true) (hlen : 2 ≤ s.length) (hfuel : s.length < fuel) :
    trimBeginLoop s fuel 0 = .ok s.length ∧
    ([] : Str).length < s.length - 1 ∧
    charAt ([] : Str) (s.length - 1) = .undefined ∧
    trimEndLoop [] fuel (s.length - 1) = .undefined ∧
    trim fuel s = .undefined := by
  have hb := trimBeginLoop_eq s fuel 0 (by omega) (by omega)
  rw [List.drop_zero, takeWhile_eq_self_of_all hall, Nat.zero_add] at hb
  have hc : charAt ([] : Str) (s.length - 1) = .undefined :=
    (charAt_undefined_iff [] (s.length - 1)).2 (by simp; omega)
  have ht := trim_undefined_of_blank s fuel hall hlen hfuel
  obtain ⟨f, rfl⟩ : ∃ f, fuel = f + 1 := ⟨fuel - 1, by omega⟩
  refine ⟨hb, by simp; omega, hc, ?_, ht⟩
  rw [trimEndLoop, hc]
  rfl

/-- Witness of C16's failure: on three spaces the second loop reads index 2 of the empty
string. -/
theorem trim_blank_read_out_of_range_witness :
    trimBeginLoop (bytes ("   ")) 4 0 = .ok (bytes ("   ")).length ∧
    ([] : Str).length < (bytes ("   ")).length - 1 ∧
    charAt ([] : Str) ((bytes ("   ")).length - 1) = .undefined ∧
    trimEndLoop [] 4 ((bytes ("   ")).length - 1) = .undefined ∧
    trim 4 (bytes ("   ")) = .undefined :=
  trim_blank_read_out_of_range (bytes ("   ")) 4 (by decide) (by decide) (by decide)

/-! ## dos2unix -/

theorem substituteAux_crlf : ∀ s : Str, substituteAux [13, 10] [10] s 0 = dos2unixSpec s
  | [] => rfl
  | [c] => by
    by_cases h : (13 : Byte) = c <;> simp [substituteAux, dos2unixSpec, List.isPrefixOf, h]
  | c :: c2 :: rest => by
    have ih1 := substituteAux_crlf (c2 :: rest)
    have ih2 := substituteAux_crlf rest
    by_cases h : c = 13 ∧ c2 = 10
    · obtain ⟨rfl, rfl⟩ := h
      simp [substituteAux, dos2unixSpec, List.isPrefixOf, ih2]
    · have hp : List.isPrefixOf [13, 10] (c :: c2 :: rest) = false := by
        simp only [List.isPrefixOf, Bool.and_true, Bool.and_eq_false_imp, beq_iff_eq,
          beq_eq_false_iff_ne, ne_eq]
        intro h1 h2
        exact h ⟨h1.symm, h2.symm⟩
      rw [substituteAux, hp, dos2unixSpec, if_neg h, ih1]
      simp

theorem dos2unix_ok (s : Str) (fuel : Nat) (hfuel : s.length < fuel) :
    dos2unix fuel s = .ok (dos2unixSpec s) := by
  have := replaceLoop_spec [13, 10] [10] (by simp) fuel [] s hfuel
  simpa [dos2unix, replace, substituteAux_crlf] using this

theorem dos2unixSpec_length_le : ∀ s : Str, (dos2unixSpec s).length ≤ s.length
  | [] => Nat.le_refl _
  | [_] => Nat.le_refl _
  | c :: c2 :: rest => by
    have ih1 := dos2unixSpec_length_le (c2 :: rest)
    have ih2 := dos2unixSpec_length_le rest
    rw [dos2unixSpec]
    split
    · simp only [List.length_cons]; omega
    · simp only [List.length_cons] at ih1 ⊢; omega

theorem dos2unixSpec_cons_of_ne (c : Byte) (hc : c ≠ 13) (x : Str) :
    dos2unixSpec (c :: x) = c :: dos2unixSpec x := by
  cases x with
  | nil => rfl
  | cons c2 rest => simp [dos2unixSpec, hc]

theorem dos2unixSpec_cr_cons (x : Str) (hx : x.head? ≠ some 10) :
    dos2unixSpec (13 :: x) = 13 :: dos2unixSpec x := by
  cases x with
  | nil => rfl
  | cons c2 rest =>
    have : c2 ≠ 10 := fun h => hx (by simp [h])
    simp [dos2unixSpec, this]

theorem dos2unixSpec_head (c2 : Byte) (rest : Str)
    (h : ¬ (c2 = 13 ∧ rest.head? = some 10)) :
    (dos2unixSpec (c2 :: rest)).head? = some c2 := by
  cases rest with
  | nil => rfl
  | cons c3 rest3 =>
    have : ¬ (c2 = 13 ∧ c3 = 10) := fun h0 => h ⟨h0.1, by simp [h0.2]⟩
    simp [dos2unixSpec, this]

theorem dos2unixSpec_idempotent : ∀ s : Str, ¬ [13, 13, 10] <:+: s →
    dos2unixSpec (dos2unixSpec s) = dos2unixSpec s
  | [], _ => rfl
  | [_], _ => rfl
  | c :: c2 :: rest, hno => by
    have hno1 : ¬ [13, 13, 10] <:+: c2 :: rest := fun h => hno (List.infix_cons h)
    have hno2 : ¬ [13, 13, 10] <:+: rest := fun h => hno1 (List.infix_cons h)
    have ih1 := dos2unixSpec_idempotent (c2 :: rest) hno1
    have ih2 := dos2unixSpec_idempotent rest hno2
    by_cases h : c = 13 ∧ c2 = 10
    · rw [dos2unixSpec, if_pos h, dos2unixSpec_cons_of_ne 10 (by decide), ih2]
    · rw [dos2unixSpec, if_neg h]
      by_cases hc : c = 13
      · subst hc
        have hc2 : c2 ≠ 10 := fun h0 => h ⟨rfl, h0⟩
        have hhead : ¬ (c2 = 13 ∧ rest.head? = some 10) := by
          rintro ⟨rfl, h3⟩
          apply hno
          cases rest with
          | nil => simp at h3
          | cons c3 rest3 =>
            simp at h3
            subst h3
            exact (List.prefix_append [13, 13, 10] rest3).isInfix
        rw [dos2unixSpec_cr_cons _ (by
          rw [dos2unixSpec_head c2 rest hhead]
          simpa using hc2), ih1]
      · rw [dos2unixSpec_cons_of_ne c hc, ih1]

/-! ## Claims on dos2unix -/

/-- C12: with enough fuel for the loop of `replace`, `dos2unix` returns the string with
every CR LF pair replaced by one LF and every other byte, a CR not followed by LF
included, kept in place. -/
theorem dos2unix_eq_dos2unixSpec (s : Str) (fuel : Nat) (hfuel : s.length < fuel) :
    dos2unix fuel s = .ok (dos2unixSpec s) :=
  dos2unix_ok s fuel hfuel

/-- Witness of C12: `dos2unix("a\r\nb\rc\r\n") = "a\nb\rc\n"`. -/
theorem dos2unix_eq_dos2unixSpec_witness :
    dos2unix 9 (bytes ("a\r\nb\rc\r\n")) = .ok (bytes ("a\nb\rc\n")) :=
  (dos2unix_eq_dos2unixSpec (bytes ("a\r\nb\rc\r\n")) 9 (by decide)).trans (by decide)

/-- C13, as stated, fails: `dos2unix("\r\r\n")` is "\r\n", the LF written by the
replacement following the CR that was kept, and `dos2unix` of that is "\n". -/
theorem dos2unix_idempotent_counterexample :
    dos2unix 4 (bytes ("\r\r\n")) = .ok (bytes ("\r\n")) ∧
    (dos2unix 4 (bytes ("\r\r\n"))).bind (dos2unix 4) = .ok (bytes ("\n")) ∧
    (dos2unix 4 (bytes ("\r\r\n"))).bind (dos2unix 4) ≠ dos2unix 4 (bytes ("\r\r\n")) := by
  decide

/-- C13, amended: for every string in which the sequence CR CR LF does not occur,
`dos2unix` applied to the result of `dos2unix` returns that result. -/
theorem dos2unix_idempotent (s : Str) (fuel : Nat) (hno : ¬ [13, 13, 10] <:+: s)
    (hfuel : s.length < fuel) :
    (dos2unix fuel s).bind (dos2unix fuel) = dos2unix fuel s ∧
    dos2unix fuel s = .ok (dos2unixSpec s) := by
  have h1 := dos2unix_ok s fuel hfuel
  have hle := dos2unixSpec_length_le s
  have h2 := dos2unix_ok (dos2unixSpec s) fuel (by omega)
  rw [dos2unixSpec_idempotent s hno] at h2
  rw [h1, Outcome.bind_ok, h2]
  exact ⟨rfl, rfl⟩

/-- Witness of C13 amended: "a\r\nb\rc\r\n" has no CR CR LF. -/
theorem dos2unix_idempotent_witness :
    (dos2unix 9 (bytes ("a\r\nb\rc\r\n"))).bind (dos2unix 9) =
      dos2unix 9 (bytes ("a\r\nb\rc\r\n")) ∧
    dos2unix 9 (bytes ("a\r\nb\rc\r\n")) = .ok (dos2unixSpec (bytes ("a\r\nb\rc\r\n"))) :=
  dos2unix_idempotent (bytes ("a\r\nb\rc\r\n")) 9 (by decide) (by decide)

/-! ## urlEncode -/

theorem toHex_eq_hexNumeral (b : Byte) : toHex b.val = hexNumeral b := by
  have hb := b.isLt
  unfold toHex hexNumeral
  by_cases h : b.val < 16
  · simp [hexDigits, h]
  · have h2 : b.val / 16 < 16 := by omega
    simp [hexDigits, h, h2]

theorem urlEncode_piece : ∀ c : Byte,
    (if ((48 ≤ c.val && c.val ≤ 57) || (65 ≤ c.val && c.val ≤ 90) ||
          (97 ≤ c.val && c.val ≤ 122) || c = 45 || c = 95 || c = 46 || c = 33 ||
          c = 126 || c = 42 || c = 39 || c = 40 || c = 41) = true then [c]
      else if c = 32 then [43] else 37 :: hexNumeral c) = enc c := by
  decide

theorem urlEncodeLoop_eq : ∀ (s result : Str),
    urlEncodeLoop s result = result ++ s.flatMap enc
  | [], result => by simp [urlEncodeLoop]
  | c :: rest, result => by
    rw [urlEncodeLoop]
    simp only [toHex_eq_hexNumeral]
    rw [List.flatMap_cons, ← urlEncode_piece c]
    split
    · rw [urlEncodeLoop_eq rest]; simp
    · split
      · rw [urlEncodeLoop_eq rest]; simp
      · rw [urlEncodeLoop_eq rest]; simp

theorem urlEncode_eq_flatMap (s : Str) : urlEncode s = s.flatMap enc := by
  rw [urlEncode, urlEncodeLoop_eq]
  rfl

theorem hexDigit_val (v : Nat) (hv : v < 16) :
    (hexDigit v).val = if v < 10 then 48 + v else 87 + v := by
  unfold hexDigit
  split
  · show (48 + v) % 256 = 48 + v
    exact Nat.mod_eq_of_lt (by omega)
  · show (87 + v) % 256 = 87 + v
    exact Nat.mod_eq_of_lt (by omega)

theorem hexDigitValue_hexDigit (v : Nat) (hv : v < 16) : hexDigitValue (hexDigit v) = v := by
  unfold hexDigitValue
  rw [hexDigit_val v hv]
  by_cases h : v < 10
  · simp only [h, if_true]
    rw [if_pos (by omega)]
    omega
  · simp only [h, if_false]
    rw [if_neg (by omega)]
    omega

theorem hexDigit_range (v : Nat) (hv : v < 16) :
    (48 ≤ (hexDigit v).val ∧ (hexDigit v).val ≤ 57) ∨
      (97 ≤ (hexDigit v).val ∧ (hexDigit v).val ≤ 102) := by
  rw [hexDigit_val v hv]
  by_cases h : v < 10
  · simp only [h, if_true]; omega
  · simp only [h, if_false]; omega

theorem hexNumeral_facts (b : Byte) :
    hexValue (hexNumeral b) = b.val ∧
    ((hexNumeral b).length = 1 ∨ (hexNumeral b).length = 2) ∧
    ((hexNumeral b).head? = some 48 → b = 0) ∧
    (∀ c ∈ hexNumeral b, (48 ≤ c.val ∧ c.val ≤ 57) ∨ (97 ≤ c.val ∧ c.val ≤ 102)) := by
  have hb := b.isLt
  unfold hexNumeral
  by_cases h : b.val < 16
  · simp only [h, if_true]
    refine ⟨?_, Or.inl rfl, ?_, ?_⟩
    · simp [hexValue, hexDigitValue_hexDigit _ h]
    · intro h0
      have h1 : hexDigit b.val = 48 := by simpa using h0
      have h2 := hexDigit_val b.val h
      rw [h1] at h2
      apply Fin.ext
      show b.val = 0
      have h3 : ((48 : Byte)).val = 48 := rfl
      rw [h3] at h2
      split at h2 <;> omega
    · intro c hc
      rw [List.mem_singleton] at hc
      rw [hc]
      exact hexDigit_range _ h
  · simp only [h, if_false]
    have h1 : b.val / 16 < 16 := by omega
    have h2 : b.val % 16 < 16 := Nat.mod_lt _ (by decide)
    refine ⟨?_, Or.inr rfl, ?_, ?_⟩
    · simp only [hexValue, List.foldl_cons, List.foldl_nil, hexDigitValue_hexDigit _ h1,
        hexDigitValue_hexDigit _ h2]
      omega
    · intro h0
      have h3 : hexDigit (b.val / 16) = 48 := by simpa using h0
      have h4 := hexDigit_val (b.val / 16) h1
      rw [h3] at h4
      have h5 : ((48 : Byte)).val = 48 := rfl
      rw [h5] at h4
      split at h4 <;> omega
    · intro c hc
      simp only [List.mem_cons, List.mem_singleton, List.not_mem_nil, or_false] at hc
      rcases hc with rfl | rfl
      · exact hexDigit_range _ h1
      · exact hexDigit_range _ h2

theorem isSafeByte_of_hex {c : Byte}
    (h : (48 ≤ c.val ∧ c.val ≤ 57) ∨ (97 ≤ c.val ∧ c.val ≤ 102)) : isSafeByte c = true := by
  unfold isSafeByte
  rcases h with ⟨h1, h2⟩ | ⟨h1, h2⟩
  · simp [h1, h2]
  · have h3 : c.val ≤ 122 := by omega
    simp [h1, h3]

theorem enc_facts (c : Byte) :
    (∀ b ∈ enc c, isEncodedByte b = true) ∧ 1 ≤ (enc c).length ∧ (enc c).length ≤ 3 := by
  unfold enc
  by_cases hs : isSafeByte c = true
  · simp [hs, isEncodedByte]
  · by_cases h32 : c = 32
    · rw [if_neg hs, if_pos h32]
      refine ⟨?_, by simp, by simp⟩
      intro b hb
      rw [List.mem_singleton] at hb
      rw [hb]
      decide
    · rw [if_neg hs, if_neg h32]
      obtain ⟨_, hlen, _, hdig⟩ := hexNumeral_facts c
      refine ⟨?_, by simp, by simp only [List.length_cons]; omega⟩
      intro b hb
      rcases List.mem_cons.1 hb with rfl | hb
      · decide
      · simp [isEncodedByte, isSafeByte_of_hex (hdig b hb)]

theorem flatMap_enc_facts : ∀ s : Str,
    (∀ b ∈ s.flatMap enc, isEncodedByte b = true) ∧ s.length ≤ (s.flatMap enc).length ∧
      (s.flatMap enc).length ≤ 3 * s.length
  | [] => by simp
  | c :: rest => by
    obtain ⟨h1, h2, h3⟩ := flatMap_enc_facts rest
    obtain ⟨g1, g2, g3⟩ := enc_facts c
    rw [List.flatMap_cons]
    refine ⟨?_, ?_, ?_⟩
    · intro b hb
      rcases List.mem_append.1 hb with hb | hb
      · exact g1 b hb
      · exact h1 b hb
    · simp only [List.length_append, List.length_cons]; omega
    · simp only [List.length_append, List.length_cons]; omega

/-! ## Claims on urlEncode -/

/-- C14: `urlEncode` is the concatenation, byte by byte, of `enc`: the byte itself when
it is a safe byte, `+` for the space, otherwise `%` followed by the lowercase hexadecimal
numeral of the byte, of one or two digits, without leading zero, whose value is the byte;
so `urlEncode("a b/c") = "a+b%2fc"` and the byte `0x05` gives "%5". -/
theorem urlEncode_bytewise (s : Str) :
    urlEncode s = s.flatMap enc ∧
    (∀ b : Byte, hexValue (hexNumeral b) = b.val ∧
      ((hexNumeral b).length = 1 ∨ (hexNumeral b).length = 2) ∧
      ((hexNumeral b).head? = some 48 → b = 0) ∧
      (∀ c ∈ hexNumeral b, (48 ≤ c.val ∧ c.val ≤ 57) ∨ (97 ≤ c.val ∧ c.val ≤ 102))) ∧
    urlEncode (bytes ("a b/c")) = bytes ("a+b%2fc") ∧
    urlEncode [5] = bytes ("%5") :=
  ⟨urlEncode_eq_flatMap s, hexNumeral_facts, by decide, by decide⟩

/-- C19: `urlEncode` is not injective: the two bytes `0x0A 'b'` and the single byte
`0xAB` both encode to "%ab". -/
theorem urlEncode_not_injective :
    urlEncode [10, 98] = bytes ("%ab") ∧ urlEncode [171] = bytes ("%ab") ∧
    ([10, 98] : Str) ≠ [171] ∧ ¬ Function.Injective urlEncode := by
  refine ⟨by decide, by decide, by decide, ?_⟩
  intro hinj
  have h : urlEncode [10, 98] = urlEncode [171] := by decide
  exact absurd (hinj h) (by decide)

/-- C20: every byte of `urlEncode(s)` is an ASCII digit, an ASCII letter or one of
`-`, `_`, `.`, `!`, `~`, `*`, `'`, `(`, `)`, `+`, `%`, and the length of `urlEncode(s)` is
between the length of `s` and three times that length. -/
theorem urlEncode_charset_and_length (s : Str) :
    (∀ b ∈ urlEncode s, isEncodedByte b = true) ∧ s.length ≤ (urlEncode s).length ∧
      (urlEncode s).length ≤ 3 * s.length := by
  rw [urlEncode_eq_flatMap]
  exact flatMap_enc_facts s

/-! ## lowercase and uppercase -/

theorem asciiToUpper_asciiToLower : ∀ c : Byte, asciiToUpper (asciiToLower c) = asciiToUpper c := by
  decide

theorem asciiToLower_asciiToUpper : ∀ c : Byte, asciiToLower (asciiToUpper c) = asciiToLower c := by
  decide

/-- C15: under the ASCII-only mapping, `uppercase(lowercase(s)) = uppercase(s)` and
`lowercase(uppercase(s)) = lowercase(s)`. -/
theorem case_involution (s : Str) :
    uppercase asciiToUpper (lowercase asciiToLower s) = uppercase asciiToUpper s ∧
    lowercase asciiToLower (uppercase asciiToUpper s) = lowercase asciiToLower s := by
  unfold uppercase lowercase
  rw [List.map_map, List.map_map]
  constructor
  · exact List.map_congr_left (fun c _ => asciiToUpper_asciiToLower c)
  · exact List.map_congr_left (fun c _ => asciiToLower_asciiToUpper c)

/-! ## Termination of replace, and the tokens of tokenize -/

theorem replaceLoop_returns (n r a : Str) (startPos fuel : Nat) (hn : n ≠ [])
    (hfuel : a.length - startPos < fuel) : ∃ res, replaceLoop n r fuel a startPos = .ok res := by
  by_cases hle : startPos ≤ a.length
  · have h := replaceLoop_spec n r hn fuel (a.take startPos) (a.drop startPos)
      (by rw [List.length_drop]; exact hfuel)
    rw [List.take_append_drop, List.length_take, Nat.min_eq_left hle] at h
    exact ⟨_, h⟩
  · obtain ⟨f, rfl⟩ : ∃ f, fuel = f + 1 := ⟨fuel - 1, by omega⟩
    exact ⟨a, by rw [replaceLoop, find, if_neg hle]⟩

theorem replace_step_decreases (n r a a1 : Str) (startPos foundPos : Nat) (hn : n ≠ [])
    (hfind : find a n startPos = some foundPos)
    (hrep : stringReplace a foundPos n.length r = .ok a1) :
    foundPos + r.length ≤ a1.length ∧
      a1.length - (foundPos + r.length) < a.length - startPos := by
  have hpos : 0 < n.length := List.length_pos.2 hn
  by_cases hle : startPos ≤ a.length
  · rw [find_eq a n startPos hle] at hfind
    cases hf : findFrom n (a.drop startPos) 0 with
    | none => simp [hf] at hfind
    | some k =>
      simp only [hf, Option.map_some', Option.some.injEq] at hfind
      obtain ⟨h1, h2, _⟩ := findFrom_some n _ k hf
      have hlen := prefix_drop_length h2 h1
      rw [List.length_drop] at hlen h2
      have hfp : foundPos ≤ a.length := by omega
      rw [stringReplace, if_pos hfp] at hrep
      have ha1 := (Outcome.ok.inj hrep).symm
      have hl : a1.length = foundPos + r.length + (a.length - (foundPos + n.length)) := by
        rw [ha1]
        simp only [List.length_append, List.length_take, List.length_drop,
          Nat.min_eq_left hfp]
      omega
  · rw [find, if_neg hle] at hfind
    exact Option.noConfusion hfind

theorem not_infix_take_of_findFrom {d t : Str} {k : Nat} (hd : d ≠ [])
    (h : findFrom d t 0 = some k) : ¬ d <:+: t.take k := by
  obtain ⟨_, _, h3⟩ := findFrom_some d t k h
  rintro ⟨a, b, hab⟩
  have hpos : 0 < d.length := List.length_pos.2 hd
  have hlen : a.length + d.length + b.length ≤ k := by
    have := congrArg List.length hab
    simp only [List.length_append, List.length_take] at this
    omega
  apply h3 a.length (by omega)
  have ht : t = a ++ (d ++ (b ++ t.drop k)) := by
    conv_lhs => rw [← List.take_append_drop k t, ← hab]
    simp
  rw [ht, List.drop_left]
  exact List.prefix_append _ _

theorem tokenizeSpec_free (d : Str) (hd : d ≠ []) : ∀ (n : Nat) (s : Str), s.length ≤ n →
    ∀ tok ∈ tokenizeSpec d s, ¬ d <:+: tok
  | n, s, hn, tok, htok => by
    cases hf : findFrom d s 0 with
    | none =>
      rw [tokenizeSpec_of_none hd hf] at htok
      by_cases hs : s = []
      · simp [hs] at htok
      · simp only [hs, if_false, List.mem_singleton] at htok
        rw [htok]
        exact (findFrom_eq_none_iff d s).1 hf
    | some k =>
      rw [tokenizeSpec_of_some hd hf] at htok
      rcases List.mem_cons.1 htok with rfl | htok
      · exact not_infix_take_of_findFrom hd hf
      · have hpos : 0 < d.length := List.length_pos.2 hd
        obtain ⟨h1, h2, _⟩ := findFrom_some d s k hf
        have hlen := prefix_drop_length h2 h1
        cases n with
        | zero => omega
        | succ n =>
          exact tokenizeSpec_free d hd n (s.drop (k + d.length))
            (by rw [List.length_drop]; omega) tok htok

/-! ## Claims on the termination of replace and on the tokens -/

/-- C17: for a non-empty needle and any replacement, each iteration of the loop of
`replace` strictly decreases the number of bytes after the scan position, and with more
fuel than that number the loop returns. -/
theorem replace_terminates (n r a : Str) (startPos fuel : Nat) (hn : n ≠ [])
    (hfuel : a.length - startPos < fuel) :
    (∃ res, replaceLoop n r fuel a startPos = .ok res) ∧
    (∀ foundPos a1, find a n startPos = some foundPos →
      stringReplace a foundPos n.length r = .ok a1 →
      foundPos + r.length ≤ a1.length ∧
        a1.length - (foundPos + r.length) < a.length - startPos) :=
  ⟨replaceLoop_returns n r a startPos fuel hn hfuel,
    fun foundPos a1 h1 h2 => replace_step_decreases n r a a1 startPos foundPos hn h1 h2⟩

/-- Witness of C17: replacing "a" by "aa" in "aa", a replacement that contains the
needle and is longer than it. -/
theorem replace_terminates_witness :
    (∃ res, replaceLoop (bytes ("a")) (bytes ("aa")) 3 (bytes ("aa")) 0 = .ok res) ∧
    (∀ foundPos a1, find (bytes ("aa")) (bytes ("a")) 0 = some foundPos →
      stringReplace (bytes ("aa")) foundPos (bytes ("a")).length (bytes ("aa")) = .ok a1 →
      foundPos + (bytes ("aa")).length ≤ a1.length ∧
        a1.length - (foundPos + (bytes ("aa")).length) < (bytes ("aa")).length - 0) :=
  replace_terminates (bytes ("a")) (bytes ("aa")) (bytes ("aa")) 0 3 (by decide) (by decide)

/-- C18: for a non-empty delimiter, no token returned by `tokenize` contains the
delimiter. -/
theorem tokenize_tokens_free (s d : Str) (fuel : Nat) (hd : d ≠ [])
    (hfuel : s.length < fuel) :
    ∃ tokens, tokenize fuel s d = .ok tokens ∧ ∀ tok ∈ tokens, ¬ d <:+: tok :=
  ⟨tokenizeSpec d s, tokenize_ok s d fuel hd hfuel,
    tokenizeSpec_free d hd s.length s (Nat.le_refl _)⟩

/-- Witness of C18: the tokens of "aaaaa" cut at "aa". -/
theorem tokenize_tokens_free_witness :
    ∃ tokens, tokenize 6 (bytes ("aaaaa")) (bytes ("aa")) = .ok tokens ∧
      ∀ tok ∈ tokens, ¬ bytes ("aa") <:+: tok :=
  tokenize_tokens_free (bytes ("aaaaa")) (bytes ("aa")) 6 (by decide) (by decide)

end utils.stringops
